import Mathlib

/-!
# go-pinyin: a shallow embedding of `pinyin.go`

The Go program turns Han text into pinyin through two lookup tables.  The
embedding keeps Go's data as it is at run time:

* a Go `string` is its sequence of bytes (`GoString`), and the conversions between
  strings and code points (`[]vowel(s)`, `for _, t := range s`, `string(v)`) are the
  UTF-8 decoder and encoder of the Go runtime, ill-formed input included;
* `vowel` is `int32`, here an `Int` (no operation of the program overflows: the only
  arithmetic is `str[0] - 32` under the guard `str[0] > 32`);
* a Go map is an association list in which the first entry for a key is the one that
  counts; an assignment `m[k] = v` leaves one entry for `k`;
* an operation that can panic at run time (an index out of range) returns `Option`,
  `none` standing for the panic;
* a dictionary file is its sequence of bytes, read through `bufio.Scanner` with its
  default buffer, which yields the lines up to the first one of 64 KiB or more.
-/

namespace GoPinyin

/-! ## Go values -/

/-- A Go string, as the sequence of its bytes (each below 256). -/
abbrev GoString := List Nat

/-- The source type `vowel` (`int32`): a code point held in a signed integer. -/
abbrev vowel := Int

/-- The source type `Style` (`uint8`). -/
abbrev Style := Nat

/-- The code point of a character literal, as in the Go literal `'a'`. -/
def rune (c : Char) : vowel := (c.toNat : Int)

/-- Go's `utf8.RuneError`, the replacement code point U+FFFD. -/
def RuneError : Int := 0xFFFD

/-- The Go runtime function `decoderune` together with the ASCII fast path of the
`range` loop: the code point at the start of a string and the number of bytes it
takes.  Anything that is not a well-formed shortest-form encoding of a Unicode
scalar value gives `RuneError` and width 1.  The masks and shifts of the runtime
are written arithmetically: `b & 0x1F` is `b % 32`, `x << 6` is `x * 64`, and `|`
joins disjoint bit fields, so it is `+`. -/
def decoderune : GoString → Int × Nat
  | [] => (RuneError, 1)
  | b0 :: rest =>
    if b0 < 0x80 then ((b0 : Int), 1)
    else if 0xC0 ≤ b0 ∧ b0 < 0xE0 then
      match rest with
      | b1 :: _ =>
        if 0x80 ≤ b1 ∧ b1 ≤ 0xBF ∧ 0x7F < (b0 % 32) * 64 + b1 % 64 then
          ((((b0 % 32) * 64 + b1 % 64 : Nat) : Int), 2)
        else (RuneError, 1)
      | [] => (RuneError, 1)
    else if 0xE0 ≤ b0 ∧ b0 < 0xF0 then
      match rest with
      | b1 :: b2 :: _ =>
        if 0x80 ≤ b1 ∧ b1 ≤ 0xBF ∧ 0x80 ≤ b2 ∧ b2 ≤ 0xBF
            ∧ 0x7FF < (b0 % 16) * 4096 + (b1 % 64) * 64 + b2 % 64
            ∧ ¬ (0xD800 ≤ (b0 % 16) * 4096 + (b1 % 64) * 64 + b2 % 64
                  ∧ (b0 % 16) * 4096 + (b1 % 64) * 64 + b2 % 64 ≤ 0xDFFF) then
          ((((b0 % 16) * 4096 + (b1 % 64) * 64 + b2 % 64 : Nat) : Int), 3)
        else (RuneError, 1)
      | _ => (RuneError, 1)
    else if 0xF0 ≤ b0 ∧ b0 < 0xF8 then
      match rest with
      | b1 :: b2 :: b3 :: _ =>
        if 0x80 ≤ b1 ∧ b1 ≤ 0xBF ∧ 0x80 ≤ b2 ∧ b2 ≤ 0xBF ∧ 0x80 ≤ b3 ∧ b3 ≤ 0xBF
            ∧ 0xFFFF < (b0 % 8) * 262144 + (b1 % 64) * 4096 + (b2 % 64) * 64 + b3 % 64
            ∧ (b0 % 8) * 262144 + (b1 % 64) * 4096 + (b2 % 64) * 64 + b3 % 64 ≤ 0x10FFFF then
          ((((b0 % 8) * 262144 + (b1 % 64) * 4096 + (b2 % 64) * 64 + b3 % 64 : Nat) : Int), 4)
        else (RuneError, 1)
      | _ => (RuneError, 1)
    else (RuneError, 1)

/-- The walk of `for _, t := range s`: `skip` counts the bytes still belonging to the
code point decoded last; at `skip = 0` the next code point is decoded. -/
def runesAux : Nat → GoString → List vowel
  | _, [] => []
  | 0, b :: rest => (decoderune (b :: rest)).1 :: runesAux ((decoderune (b :: rest)).2 - 1) rest
  | k + 1, _ :: rest => runesAux k rest

/-- The code points of a string: the conversion `[]vowel(s)` and the values a
`for _, t := range s` loop visits. -/
def runes (s : GoString) : List vowel := runesAux 0 s

/-- The Go runtime function `encoderune`: the UTF-8 bytes of a code point; a negative
value, a surrogate or a value above U+10FFFF is encoded as `RuneError`. -/
def encoderune (r : Int) : GoString :=
  if 0 ≤ r ∧ r ≤ 0x7F then [r.toNat]
  else if 0 ≤ r ∧ r ≤ 0x7FF then [0xC0 + r.toNat / 64, 0x80 + r.toNat % 64]
  else if r < 0 ∨ 0x10FFFF < r ∨ (0xD800 ≤ r ∧ r ≤ 0xDFFF) then [0xEF, 0xBF, 0xBD]
  else if r ≤ 0xFFFF then
    [0xE0 + r.toNat / 4096, 0x80 + r.toNat / 64 % 64, 0x80 + r.toNat % 64]
  else
    [0xF0 + r.toNat / 262144, 0x80 + r.toNat / 4096 % 64, 0x80 + r.toNat / 64 % 64,
      0x80 + r.toNat % 64]

/-- The conversion `string(v)` of an integer to a string. -/
def stringOf (v : vowel) : GoString := encoderune v

/-- The loop `for _, e := range xs { result += string(e) }`, started from `result`. -/
def appendRunes (result : GoString) : List vowel → GoString
  | [] => result
  | e :: rest => appendRunes (result ++ stringOf e) rest

/-- A code point is a Unicode scalar value: in range and not a surrogate. -/
def validRune (r : Int) : Prop := (0 ≤ r ∧ r < 0xD800) ∨ (0xDFFF < r ∧ r ≤ 0x10FFFF)

instance (r : Int) : Decidable (validRune r) := by unfold validRune; infer_instance

/-- What `string(v)` stores for `v`: `v` itself when it is a scalar value, `RuneError`
otherwise. -/
def scalarOf (r : Int) : Int := if validRune r then r else RuneError

/-- The UTF-8 text of a sequence of code points. -/
def utf8Of (cs : List vowel) : GoString := cs.flatMap stringOf

/-- The bytes of a Go string literal: the UTF-8 encoding of its text. -/
def lit (s : String) : GoString := utf8Of (s.data.map rune)

/-- The count of `utf8.RuneCountInString`: ill-formed bytes count one each. -/
def utf8.countAux : Nat → GoString → Nat
  | _, [] => 0
  | 0, b :: rest => utf8.countAux ((decoderune (b :: rest)).2 - 1) rest + 1
  | k + 1, _ :: rest => utf8.countAux k rest

/-- Go's `utf8.RuneCountInString`. -/
def utf8.RuneCountInString (s : GoString) : Nat := utf8.countAux 0 s

/-- Whether `sep` is written at the start of `s`. -/
def startsWith (sep : GoString) (s : GoString) : Bool :=
  decide (s.take sep.length = sep)

/-- The scan of `strings.Split` for a non-empty separator: `cur` holds the bytes of the
field being read (latest first); `skip` counts the bytes of a separator still to pass. -/
def strings.splitAux (sep : GoString) : Nat → GoString → GoString → List GoString
  | _, cur, [] => [cur.reverse]
  | 0, cur, b :: rest =>
    if startsWith sep (b :: rest) then
      cur.reverse :: strings.splitAux sep (sep.length - 1) [] rest
    else strings.splitAux sep 0 (b :: cur) rest
  | k + 1, cur, _ :: rest => strings.splitAux sep k cur rest

/-- Go's `strings.Split(s, sep)` for a non-empty `sep` (the source calls it with `","`
and `"=>"`): the fields between the leftmost non-overlapping occurrences of `sep`. -/
def strings.Split (s sep : GoString) : List GoString := strings.splitAux sep 0 [] s

/-- Go's `strings.Join(elems, sep)`. -/
def strings.Join : List GoString → GoString → GoString
  | [], _ => []
  | [w], _ => w
  | w :: w2 :: rest, sep => w ++ sep ++ strings.Join (w2 :: rest) sep

/-! ## Go maps -/

/-- A Go `map[vowel]V`: the entries, the one that counts for a key being the first. -/
abbrev GoMap (V : Type) := List (vowel × V)

/-- The lookup `v, ok := m[k]`. -/
def GoMap.get {V : Type} (m : GoMap V) (k : vowel) : Option V := List.lookup k m

/-- The assignment `m[k] = v`: an entry for `k` is replaced. -/
def GoMap.set {V : Type} (m : GoMap V) (k : vowel) (v : V) : GoMap V :=
  (k, v) :: m.filter (fun p => p.1 != k)

/-- The removal `delete(m, k)` of the entry for `k`. -/
def GoMap.delete {V : Type} (m : GoMap V) (k : vowel) : GoMap V :=
  m.filter (fun p => p.1 != k)

/-- The number of keys, `len(m)`. -/
def GoMap.len {V : Type} (m : GoMap V) : Nat := m.length

/-! ## The adapter -/

/-- The source struct `Adapter`. -/
structure Adapter where
  tempPath : GoString
  toneTemp : GoMap vowel
  pinYinTemp : GoMap GoString

/-- The sentinel constant `None = "9999"`. -/
def None : GoString := lit "9999"

/-- Style constant `Normal = 0`. -/
def Normal : Style := 0

/-- Style constant `Tone = 1`. -/
def Tone : Style := 1

/-- Style constant `InitialBigLetter = 2`. -/
def InitialBigLetter : Style := 2

/-- The slice `firstTone` of `init`. -/
def firstTone : List vowel :=
  [rune 'ā', rune 'ē', rune 'ī', rune 'ō', rune 'ū', rune 'ǖ',
   rune 'Ā', rune 'Ē', rune 'Ī', rune 'Ō', rune 'Ū', rune 'Ǖ']

/-- The slice `secondTone` of `init`. -/
def secondTone : List vowel :=
  [rune 'á', rune 'é', rune 'í', rune 'ó', rune 'ú', rune 'ǘ',
   rune 'Á', rune 'É', rune 'Í', rune 'Ó', rune 'Ú', rune 'Ǘ']

/-- The slice `thirdTone` of `init`. -/
def thirdTone : List vowel :=
  [rune 'ǎ', rune 'ě', rune 'ǐ', rune 'ǒ', rune 'ǔ', rune 'ǚ',
   rune 'Ǎ', rune 'Ě', rune 'Ǐ', rune 'Ǒ', rune 'Ǔ', rune 'Ǚ']

/-- The slice `fourthTone` of `init`. -/
def fourthTone : List vowel :=
  [rune 'à', rune 'è', rune 'ì', rune 'ò', rune 'ù', rune 'ǜ',
   rune 'À', rune 'È', rune 'Ì', rune 'Ò', rune 'Ù', rune 'Ǜ']

/-- The slice `noTone` of `init`. -/
def noTone : List vowel :=
  [rune 'a', rune 'e', rune 'i', rune 'o', rune 'u', rune 'v',
   rune 'A', rune 'E', rune 'I', rune 'O', rune 'U', rune 'V']

/-- One loop `for i, e := range tones { adp.toneTemp[e] = noTone[i] }` of `init`, from
index `i` on.  The read `noTone[i]` is in bounds: the five slices have twelve elements
each (`tone_slices_length`). -/
def toneLoop (i : Nat) (m : GoMap vowel) : List vowel → GoMap vowel
  | [] => m
  | e :: rest => toneLoop (i + 1) (m.set e (noTone.getD i 0)) rest

/-- Lines 85 to 104 of `init`: the four loops that fill `toneTemp`. -/
def initToneTemp (m : GoMap vowel) : GoMap vowel :=
  toneLoop 0 (toneLoop 0 (toneLoop 0 (toneLoop 0 m firstTone) secondTone) thirdTone) fourthTone

/-- The adapter `NewAdapter` returns once the first half of `init` has put the
entries `T` into `pinYinTemp`: `toneTemp` starts as the empty map of `NewAdapter`
and is filled by the second half of `init`. -/
def adapterWith (T : GoMap GoString) : Adapter :=
  { tempPath := [], toneTemp := initToneTemp [], pinYinTemp := T }

/-- The method `tone`: the first comma-separated field of the reading of `han`, or
the sentinel. -/
def tone (adp : Adapter) (han : vowel) : Option GoString :=
  match adp.pinYinTemp.get han with
  | some data => if data ≠ [] then (strings.Split data (lit ","))[0]? else some None
  | none => some None

/-- The first loop of `defaultTone`: every code point `t` of the reading is written to
`resultVowel[count]`, replaced by its `toneTemp` value when it has one. -/
def stripLoop (toneTemp : GoMap vowel) : List vowel → List vowel → Nat → Option (List vowel)
  | [], resultVowel, _ => some resultVowel
  | t :: rest, resultVowel, count =>
    if count < resultVowel.length then
      match toneTemp.get t with
      | some data => stripLoop toneTemp rest (resultVowel.set count data) (count + 1)
      | none => stripLoop toneTemp rest (resultVowel.set count t) (count + 1)
    else none

/-- The substitution the loop of `defaultTone` applies to one code point: its
`toneTemp` value when it is a key, the code point itself otherwise. -/
def stripRune (toneTemp : GoMap vowel) (t : vowel) : vowel :=
  match toneTemp.get t with
  | some data => data
  | none => t

/-- The body of `defaultTone` from the toned reading on (lines 165 to 183). -/
def stripTone (adp : Adapter) (tone : GoString) : Option GoString :=
  if tone = [] then some None
  else
    match stripLoop adp.toneTemp (runes tone)
        (List.replicate (utf8.RuneCountInString tone) 0) 0 with
    | some resultVowel => some (appendRunes [] resultVowel)
    | none => none

/-- The method `defaultTone`. -/
def defaultTone (adp : Adapter) (han : vowel) : Option GoString :=
  match tone adp han with
  | some tone => stripTone adp tone
  | none => none

/-- The body of `initialWithBigLetter` from the Normal rendering `def` on (lines 150
to 160). -/
def bigLetter (def_ : GoString) : Option GoString :=
  if def_ = [] then some def_
  else
    match runes def_ with
    | [] => none
    | str0 :: strRest =>
      if str0 > 32 then some (appendRunes [] ((str0 - 32) :: strRest))
      else some (appendRunes [] (str0 :: strRest))

/-- The method `initialWithBigLetter`. -/
def initialWithBigLetter (adp : Adapter) (han : vowel) : Option GoString :=
  match defaultTone adp han with
  | some def_ => bigLetter def_
  | none => none

/-- The method `parseSingleHan`. -/
def parseSingleHan (adp : Adapter) (han : vowel) (yinType : Style) : Option GoString :=
  if yinType = Tone then tone adp han
  else if yinType = InitialBigLetter then initialWithBigLetter adp han
  else defaultTone adp han

/-- The loop of `ParseHans` over the code points of the text; `isHan` is the standard
library test `unicode.Is(unicode.Han, r)`. -/
def parseLoop (isHan : vowel → Bool) (adp : Adapter) (yinType : Style) :
    List vowel → List GoString → Option (List GoString)
  | [], words => some words
  | single :: rest, words =>
    if isHan single = false then
      parseLoop isHan adp yinType rest (words ++ [stringOf single])
    else
      match parseSingleHan adp single yinType with
      | some word =>
        if word.length > 0 then parseLoop isHan adp yinType rest (words ++ [word])
        else parseLoop isHan adp yinType rest words
      | none => none

/-- The method `ParseHans`. -/
def ParseHans (isHan : vowel → Bool) (adp : Adapter) (hans split : GoString)
    (yinType : Style) : Option GoString :=
  match parseLoop isHan adp yinType (runes hans) [] with
  | some words => some (strings.Join words split)
  | none => none

/-! ## Loading the Pinyin table -/

/-- The value of a digit byte in `strconv.ParseUint`: '0' to '9' count 0 to 9, a letter
of either case counts 10 to 35 (the test `'a' <= lower(c) && lower(c) <= 'z'`), anything
else is a syntax error. -/
def strconv.digitVal (c : Nat) : Option Nat :=
  if 0x30 ≤ c ∧ c ≤ 0x39 then some (c - 0x30)
  else if 0x61 ≤ c ∧ c ≤ 0x7A then some (c - 0x61 + 10)
  else if 0x41 ≤ c ∧ c ≤ 0x5A then some (c - 0x41 + 10)
  else none

/-- The digit loop of `strconv.ParseUint` for a base from 2 to 36, from the value `n` read
so far; `none` is a syntax error.  The value is not cut to 64 bits here: `ParseUint`
compares it with the bound of `bitSize`, which reports every overflow as an error. -/
def strconv.parseDigits (base : Nat) : Nat → GoString → Option Nat
  | n, [] => some n
  | n, c :: rest =>
    match strconv.digitVal c with
    | some d => if d < base then strconv.parseDigits base (n * base + d) rest else none
    | none => none

/-- Go's `strconv.ParseUint(s, base, bitSize)` for a base from 2 to 36 and a `bitSize`
from 1 to 64, `none` standing for a returned error (syntax or range). -/
def strconv.ParseUint (s : GoString) (base bitSize : Nat) : Option Nat :=
  if s = [] then none
  else
    match strconv.parseDigits base 0 s with
    | some n => if n < 2 ^ bitSize then some n else none
    | none => none

/-- Go's `strconv.ParseInt(s, base, bitSize)` for a base from 2 to 36 and a `bitSize`
from 1 to 64, `none` standing for a returned error: an optional sign, then the digits of
`ParseUint`, then the test of the signed range. -/
def strconv.ParseInt (s : GoString) (base bitSize : Nat) : Option Int :=
  match s with
  | [] => none
  | c :: rest =>
    match strconv.ParseUint (if c = 0x2B ∨ c = 0x2D then rest else c :: rest) base bitSize with
    | none => none
    | some un =>
      if c ≠ 0x2D ∧ un ≥ 2 ^ (bitSize - 1) then none
      else if c = 0x2D ∧ un > 2 ^ (bitSize - 1) then none
      else some (if c = 0x2D then - (un : Int) else (un : Int))

/-- Go's `bufio.MaxScanTokenSize`, the size the buffer of a `bufio.Scanner` grows to. -/
def bufio.MaxScanTokenSize : Nat := 64 * 1024

/-- The function `dropCR` of `bufio`: a line without its final carriage return. -/
def bufio.dropCR (data : GoString) : GoString :=
  if data.getLast? = some 0x0D then data.dropLast else data

/-- The lines a `bufio.Scanner` with the split function `ScanLines` and the default buffer
yields for the bytes that are still to read; `cur` holds the bytes of the line being
read (latest first).  A line ends at the byte 0x0A; a last line without one is yielded
when it is not empty.  When `MaxScanTokenSize` bytes have been read without the end of a
line, the buffer is full, `Scan` returns false (`ErrTooLong`) and nothing more is
yielded. -/
def bufio.scanAux : GoString → GoString → List GoString
  | cur, [] => if cur = [] then [] else [bufio.dropCR cur.reverse]
  | cur, b :: rest =>
    if b = 0x0A then bufio.dropCR cur.reverse :: bufio.scanAux [] rest
    else if cur.length + 1 ≥ bufio.MaxScanTokenSize then []
    else bufio.scanAux (b :: cur) rest

/-- The successive values of `scanner.Text()` in the loop `for scanner.Scan()` over a
file with the bytes `content`. -/
def bufio.scanLines (content : GoString) : List GoString := bufio.scanAux [] content

/-- The body of the loop `for scanner.Scan()` of `init` for the line `text`: a line with
fewer than two fields, or whose first field `strconv.ParseInt` rejects, changes nothing. -/
def loadLine (pinYinTemp : GoMap GoString) (text : GoString) : GoMap GoString :=
  match strings.Split text (lit "=>") with
  | row0 :: row1 :: _ =>
    match strconv.ParseInt row0 16 32 with
    | some temp => pinYinTemp.set temp row1
    | none => pinYinTemp
  | _ => pinYinTemp

/-- The loop `for scanner.Scan()` of `init` over the lines the scanner yields. -/
def loadLines (pinYinTemp : GoMap GoString) : List GoString → GoMap GoString
  | [] => pinYinTemp
  | text :: rest => loadLines (loadLine pinYinTemp text) rest

/-- The loop `for k, v := range pinyinDict` of `init`. -/
def copyDict (pinYinTemp : GoMap GoString) : GoMap GoString → GoMap GoString
  | [] => pinYinTemp
  | (k, v) :: rest => copyDict (pinYinTemp.set k v) rest

/-- The source type `Options`: a function that changes the adapter. -/
abbrev Options := Adapter → Adapter

/-- The option `WithTempPath`. -/
def WithTempPath (path : GoString) : Options :=
  fun adapter => { adapter with tempPath := path }

/-- The method `init`.  `openFile path` gives the bytes of the file at `path`, or
`none` when `os.Open` fails, and then `init` panics; the loop runs over the lines the
scanner yields and ends when `Scan` returns false, the error of the scanner not being
looked at.  `pinyinDict` is the built-in dictionary, a table of the package that is
declared in another file. -/
def init (openFile : GoString → Option GoString) (pinyinDict : GoMap GoString)
    (adp : Adapter) : Option Adapter :=
  if adp.tempPath ≠ [] then
    match openFile adp.tempPath with
    | none => none
    | some content =>
      some { adp with pinYinTemp := loadLines adp.pinYinTemp (bufio.scanLines content),
                      toneTemp := initToneTemp adp.toneTemp }
  else
    some { adp with pinYinTemp := copyDict adp.pinYinTemp pinyinDict,
                    toneTemp := initToneTemp adp.toneTemp }

/-- The constructor `NewAdapter`. -/
def NewAdapter (openFile : GoString → Option GoString) (pinyinDict : GoMap GoString)
    (opts : List Options) : Option Adapter :=
  init openFile pinyinDict
    (opts.foldl (fun adp opt => opt adp) { tempPath := [], toneTemp := [], pinYinTemp := [] })

/-- The lines of a sample dictionary file: three well-formed lines among lines that are
skipped. -/
def sampleLines : List GoString :=
  [lit "4E2D=>zhōng,zhòng", lit "no delimiter here", lit "56FD=>guó", lit "xyz=>bad",
   lit "80000000=>too big", lit "4EBA=>rén"]

/-- The bytes of the sample dictionary file; its third line ends with a carriage return
and its last line has no line end. -/
def sampleContent : GoString :=
  lit "4E2D=>zhōng,zhòng\nno delimiter here\n56FD=>guó\r\nxyz=>bad\n80000000=>too big\n4EBA=>rén"

/-- The sample file without its second line. -/
def sampleContentShort : GoString :=
  lit "4E2D=>zhōng,zhòng\n56FD=>guó\r\nxyz=>bad\n80000000=>too big\n4EBA=>rén"

/-- A sample file system: one file, with the bytes `content`, at the path "dict.txt". -/
def sampleFiles (content : GoString) (path : GoString) : Option GoString :=
  if path = lit "dict.txt" then some content else none

/-- A line of `MaxScanTokenSize` bytes 'x', without a delimiter. -/
def longLine : GoString := List.replicate 65536 0x78

/-- A dictionary file of three lines, each with its line end: "4E2D=>zhōng", then
`longLine`, then "56FD=>guó". -/
def longLineContent : GoString :=
  lit "4E2D=>zhōng" ++ 0x0A :: (longLine ++ lit "\n56FD=>guó\n")

/-! ## Sample data of the concrete statements -/

/-- A sample of the standard library test `unicode.Is(unicode.Han, r)`: the code points
U+4E00 to U+9FA5 of the CJK Unified Ideographs block, which are of the Han script in every
version of the Unicode tables; the general statements take the test as a parameter. -/
def isHanSample (r : vowel) : Bool := decide (0x4E00 ≤ r ∧ r ≤ 0x9FA5)

/-- A Pinyin table with the readings of 中, 国 and 人. -/
def sampleTable : GoMap GoString :=
  [(rune '中', lit "zhōng,zhòng"), (rune '国', lit "guó"), (rune '人', lit "rén")]

/-- A Pinyin table in which 中 has the empty reading. -/
def emptyReadingTable : GoMap GoString :=
  [(rune '国', lit "guó"), (rune '中', []), (rune '人', lit "rén")]

/-- A Pinyin table whose reading of 中 starts with a comma, as the line `4E2D=>,zhōng`
of a dictionary file gives it. -/
def commaTable : GoMap GoString := [(rune '中', lit ",zhōng")]

/-! ## The toned vowels, as the specification lists them -/

/-- The 48 toned vowels: the four toned forms (macron, acute, caron, grave) of each of
a, e, i, o, u, ü, in lower and in upper case. -/
def tonedVowels : List vowel :=
  [rune 'ā', rune 'á', rune 'ǎ', rune 'à',
   rune 'ē', rune 'é', rune 'ě', rune 'è',
   rune 'ī', rune 'í', rune 'ǐ', rune 'ì',
   rune 'ō', rune 'ó', rune 'ǒ', rune 'ò',
   rune 'ū', rune 'ú', rune 'ǔ', rune 'ù',
   rune 'ǖ', rune 'ǘ', rune 'ǚ', rune 'ǜ',
   rune 'Ā', rune 'Á', rune 'Ǎ', rune 'À',
   rune 'Ē', rune 'É', rune 'Ě', rune 'È',
   rune 'Ī', rune 'Í', rune 'Ǐ', rune 'Ì',
   rune 'Ō', rune 'Ó', rune 'Ǒ', rune 'Ò',
   rune 'Ū', rune 'Ú', rune 'Ǔ', rune 'Ù',
   rune 'Ǖ', rune 'Ǘ', rune 'Ǚ', rune 'Ǜ']

/-- The toned vowels paired with their unmarked letters as `init` stores them: a toned
a, e, i, o, u with the plain letter of the same case, a toned ü with the letter v of the
same case. -/
def tonedPairs : List (vowel × vowel) :=
  [(rune 'ā', rune 'a'), (rune 'á', rune 'a'), (rune 'ǎ', rune 'a'), (rune 'à', rune 'a'),
   (rune 'ē', rune 'e'), (rune 'é', rune 'e'), (rune 'ě', rune 'e'), (rune 'è', rune 'e'),
   (rune 'ī', rune 'i'), (rune 'í', rune 'i'), (rune 'ǐ', rune 'i'), (rune 'ì', rune 'i'),
   (rune 'ō', rune 'o'), (rune 'ó', rune 'o'), (rune 'ǒ', rune 'o'), (rune 'ò', rune 'o'),
   (rune 'ū', rune 'u'), (rune 'ú', rune 'u'), (rune 'ǔ', rune 'u'), (rune 'ù', rune 'u'),
   (rune 'ǖ', rune 'v'), (rune 'ǘ', rune 'v'), (rune 'ǚ', rune 'v'), (rune 'ǜ', rune 'v'),
   (rune 'Ā', rune 'A'), (rune 'Á', rune 'A'), (rune 'Ǎ', rune 'A'), (rune 'À', rune 'A'),
   (rune 'Ē', rune 'E'), (rune 'É', rune 'E'), (rune 'Ě', rune 'E'), (rune 'È', rune 'E'),
   (rune 'Ī', rune 'I'), (rune 'Í', rune 'I'), (rune 'Ǐ', rune 'I'), (rune 'Ì', rune 'I'),
   (rune 'Ō', rune 'O'), (rune 'Ó', rune 'O'), (rune 'Ǒ', rune 'O'), (rune 'Ò', rune 'O'),
   (rune 'Ū', rune 'U'), (rune 'Ú', rune 'U'), (rune 'Ǔ', rune 'U'), (rune 'Ù', rune 'U'),
   (rune 'Ǖ', rune 'V'), (rune 'Ǘ', rune 'V'), (rune 'Ǚ', rune 'V'), (rune 'Ǜ', rune 'V')]

/-! ## UTF-8: decoding what was encoded -/

/-- The bytes of the literals used below are their UTF-8 encodings. -/
theorem literal_bytes :
    lit "9999" = [0x39, 0x39, 0x39, 0x39]
    ∧ lit "," = [0x2C]
    ∧ lit "中" = [0xE4, 0xB8, 0xAD]
    ∧ lit "zhōng" = [0x7A, 0x68, 0xC5, 0x8D, 0x6E, 0x67]
    ∧ rune '中' = 0x4E2D
    ∧ runes (lit "a中b") = [0x61, 0x4E2D, 0x62]
    ∧ runes [0xFF, 0x61, 0xE4, 0xB8] = [0xFFFD, 0x61, 0xFFFD, 0xFFFD] := by
  decide

theorem encoderune_ne_nil (r : Int) : encoderune r ≠ [] := by
  unfold encoderune
  split_ifs <;> simp

theorem decoderune_one (n : Nat) (h : n ≤ 0x7F) (rest : GoString) :
    decoderune (n :: rest) = ((n : Int), 1) := by
  simp only [decoderune]
  rw [if_pos (by omega)]

theorem decoderune_two (n : Nat) (h1 : 0x7F < n) (h2 : n ≤ 0x7FF) (rest : GoString) :
    decoderune ((0xC0 + n / 64) :: (0x80 + n % 64) :: rest) = ((n : Int), 2) := by
  simp only [decoderune]
  rw [if_neg (by omega), if_pos (by omega), if_pos (by omega)]
  congr 2
  omega

theorem decoderune_three (n : Nat) (h1 : 0x7FF < n) (h2 : n ≤ 0xFFFF)
    (h3 : ¬ (0xD800 ≤ n ∧ n ≤ 0xDFFF)) (rest : GoString) :
    decoderune ((0xE0 + n / 4096) :: (0x80 + n / 64 % 64) :: (0x80 + n % 64) :: rest)
      = ((n : Int), 3) := by
  have e : (0xE0 + n / 4096) % 16 * 4096 + (0x80 + n / 64 % 64) % 64 * 64
      + (0x80 + n % 64) % 64 = n := by omega
  simp only [decoderune]
  rw [if_neg (by omega), if_neg (by omega), if_pos (by omega), e, if_pos (by omega)]

theorem decoderune_four (n : Nat) (h1 : 0xFFFF < n) (h2 : n ≤ 0x10FFFF) (rest : GoString) :
    decoderune ((0xF0 + n / 262144) :: (0x80 + n / 4096 % 64) :: (0x80 + n / 64 % 64)
      :: (0x80 + n % 64) :: rest) = ((n : Int), 4) := by
  have e : (0xF0 + n / 262144) % 8 * 262144 + (0x80 + n / 4096 % 64) % 64 * 4096
      + (0x80 + n / 64 % 64) % 64 * 64 + (0x80 + n % 64) % 64 = n := by omega
  simp only [decoderune]
  rw [if_neg (by omega), if_neg (by omega), if_neg (by omega), if_pos (by omega), e,
    if_pos (by omega)]

theorem decoderune_error (rest : GoString) :
    decoderune (0xEF :: 0xBF :: 0xBD :: rest) = (RuneError, 3) := by
  simp [decoderune, RuneError]

theorem decoderune_encoderune (r : Int) (rest : GoString) :
    decoderune (encoderune r ++ rest) = (scalarOf r, (encoderune r).length) := by
  by_cases hneg : r < 0
  · have h1 : encoderune r = [0xEF, 0xBF, 0xBD] := by
      unfold encoderune
      rw [if_neg (by omega), if_neg (by omega), if_pos (by omega)]
    have h2 : scalarOf r = RuneError := by
      unfold scalarOf validRune
      rw [if_neg (by omega)]
    rw [h1, h2]
    exact decoderune_error rest
  · obtain ⟨n, rfl⟩ := Int.eq_ofNat_of_zero_le (by omega : 0 ≤ r)
    unfold encoderune scalarOf validRune
    simp only [Int.toNat_ofNat, List.cons_append, List.nil_append, List.length_cons,
      List.length_nil]
    split_ifs <;> first
      | omega
      | exact decoderune_one n (by omega) rest
      | exact decoderune_two n (by omega) (by omega) rest
      | exact decoderune_three n (by omega) (by omega) (by omega) rest
      | exact decoderune_four n (by omega) (by omega) rest
      | exact decoderune_error rest

theorem runesAux_skip (pre rest : GoString) :
    runesAux pre.length (pre ++ rest) = runesAux 0 rest := by
  induction pre with
  | nil => rfl
  | cons b pre ih => simpa [runesAux] using ih

theorem runes_encoderune_append (r : Int) (rest : GoString) :
    runes (encoderune r ++ rest) = scalarOf r :: runes rest := by
  have hd := decoderune_encoderune r rest
  cases he : encoderune r with
  | nil => exact absurd he (encoderune_ne_nil r)
  | cons b t =>
    rw [he] at hd
    simp only [List.cons_append] at hd
    show runesAux 0 (b :: (t ++ rest)) = scalarOf r :: runesAux 0 rest
    rw [runesAux, hd]
    simp only [List.length_cons, Nat.add_sub_cancel]
    rw [runesAux_skip]

theorem utf8Of_cons (c : Int) (cs : List Int) : utf8Of (c :: cs) = encoderune c ++ utf8Of cs := by
  simp [utf8Of, stringOf]

theorem utf8Of_append (xs ys : List Int) : utf8Of (xs ++ ys) = utf8Of xs ++ utf8Of ys := by
  simp [utf8Of]

theorem runes_utf8Of_append (cs : List Int) (rest : GoString) :
    runes (utf8Of cs ++ rest) = cs.map scalarOf ++ runes rest := by
  induction cs with
  | nil => simp [utf8Of]
  | cons c cs ih =>
    rw [utf8Of_cons, List.append_assoc, runes_encoderune_append, ih]
    rfl

theorem runes_utf8Of (cs : List Int) : runes (utf8Of cs) = cs.map scalarOf := by
  have h := runes_utf8Of_append cs []
  simpa [runes, runesAux] using h

theorem appendRunes_eq (acc : GoString) (l : List Int) :
    appendRunes acc l = acc ++ utf8Of l := by
  induction l generalizing acc with
  | nil => simp [appendRunes, utf8Of]
  | cons e l ih => rw [appendRunes, ih, utf8Of_cons, stringOf, List.append_assoc]

theorem scalarOf_of_valid {r : Int} (h : validRune r) : scalarOf r = r := by
  simp [scalarOf, h]

theorem validRune_scalarOf (r : Int) : validRune (scalarOf r) := by
  unfold scalarOf
  split_ifs with h
  · exact h
  · unfold validRune RuneError; omega

theorem scalarOf_scalarOf (r : Int) : scalarOf (scalarOf r) = scalarOf r :=
  scalarOf_of_valid (validRune_scalarOf r)

theorem encoderune_scalarOf (r : Int) : encoderune (scalarOf r) = encoderune r := by
  unfold scalarOf
  split_ifs with h
  · rfl
  · unfold validRune at h
    have h1 : encoderune r = [0xEF, 0xBF, 0xBD] := by
      unfold encoderune
      rw [if_neg (by omega), if_neg (by omega), if_pos (by omega)]
    rw [h1]
    decide

theorem utf8Of_map_scalarOf (cs : List Int) : utf8Of (cs.map scalarOf) = utf8Of cs := by
  induction cs with
  | nil => rfl
  | cons c cs ih => rw [List.map_cons, utf8Of_cons, utf8Of_cons, ih, encoderune_scalarOf]

theorem countAux_eq (k : Nat) (s : GoString) : utf8.countAux k s = (runesAux k s).length := by
  induction s generalizing k with
  | nil => cases k <;> rfl
  | cons b s ih =>
    cases k with
    | zero => simp [utf8.countAux, runesAux, ih]
    | succ k => simp [utf8.countAux, runesAux, ih]

theorem RuneCountInString_eq (s : GoString) : utf8.RuneCountInString s = (runes s).length :=
  countAux_eq 0 s

theorem runes_eq_nil_iff (s : GoString) : runes s = [] ↔ s = [] := by
  cases s with
  | nil => simp [runes, runesAux]
  | cons b s => simp [runes, runesAux]

theorem utf8Of_eq_nil_iff (cs : List Int) : utf8Of cs = [] ↔ cs = [] := by
  cases cs with
  | nil => simp [utf8Of]
  | cons c cs => simp [utf8Of_cons, encoderune_ne_nil]

theorem splitAux_comma_head (c : Nat) (cur s : GoString) :
    (strings.splitAux [c] 0 cur s)[0]? = some (cur.reverse ++ s.takeWhile (fun b => b != c)) := by
  induction s generalizing cur with
  | nil => simp [strings.splitAux]
  | cons b s ih =>
    by_cases h : b = c
    · subst h
      simp [strings.splitAux, startsWith]
    · have hs : startsWith [c] (b :: s) = false := by simp [startsWith, h]
      rw [strings.splitAux, hs]
      simp only [Bool.false_eq_true, if_false]
      rw [ih]
      simp [List.takeWhile_cons, h]

theorem Split_comma_head (s : GoString) :
    (strings.Split s (lit ","))[0]? = some (s.takeWhile (fun b => b != 0x2C)) := by
  have h : lit "," = [0x2C] := by decide
  rw [h, strings.Split, splitAux_comma_head]
  simp

theorem takeWhile_append_of_not_mem (c : Nat) (pre post : GoString) (h : c ∉ pre) :
    (pre ++ c :: post).takeWhile (fun b => b != c) = pre := by
  induction pre with
  | nil => simp [List.takeWhile_cons]
  | cons b pre ih =>
    have hb : b ≠ c := fun e => h (by simp [e])
    have hp : c ∉ pre := fun e => h (by simp [e])
    simp [List.takeWhile_cons, hb, ih hp]

theorem takeWhile_of_not_mem (c : Nat) (s : GoString) (h : c ∉ s) :
    s.takeWhile (fun b => b != c) = s := by
  induction s with
  | nil => rfl
  | cons b s ih =>
    have hb : b ≠ c := fun e => h (by simp [e])
    have hp : c ∉ s := fun e => h (by simp [e])
    simp [List.takeWhile_cons, hb, ih hp]

theorem tone_eq (adp : Adapter) (han : vowel) :
    tone adp han = some (match adp.pinYinTemp.get han with
      | some data => if data ≠ [] then data.takeWhile (fun b => b != 0x2C) else None
      | none => None) := by
  unfold tone
  cases adp.pinYinTemp.get han with
  | none => rfl
  | some data =>
    simp only
    split_ifs
    · exact Split_comma_head data
    · rfl

theorem set_replicate_append (done : List vowel) (x : vowel) (n : Nat) :
    (done ++ List.replicate (n + 1) 0).set done.length x = (done ++ [x]) ++ List.replicate n 0 := by
  induction done with
  | nil => simp [List.replicate_succ]
  | cons d done ih => simpa using ih

theorem stripLoop_eq (toneTemp : GoMap vowel) (ts done : List vowel) :
    stripLoop toneTemp ts (done ++ List.replicate ts.length 0) done.length
      = some (done ++ ts.map (stripRune toneTemp)) := by
  induction ts generalizing done with
  | nil => simp [stripLoop]
  | cons t ts ih =>
    have hlt : done.length < (done ++ List.replicate (t :: ts).length 0).length := by simp
    rw [stripLoop, if_pos hlt]
    have e1 : ∀ x : vowel, (done ++ List.replicate (t :: ts).length 0).set done.length x
        = (done ++ [x]) ++ List.replicate ts.length 0 := fun x => set_replicate_append done x _
    have e2 : ∀ x : vowel, done.length + 1 = (done ++ [x]).length := by simp
    cases hg : toneTemp.get t with
    | none =>
      simp only
      rw [e1, e2 t, ih]
      simp [stripRune, hg]
    | some data =>
      simp only
      rw [e1, e2 data, ih]
      simp [stripRune, hg]

theorem stripTone_eq (adp : Adapter) (tone : GoString) :
    stripTone adp tone = some (if tone = [] then None
      else utf8Of ((runes tone).map (stripRune adp.toneTemp))) := by
  unfold stripTone
  split_ifs
  · rfl
  · have h := stripLoop_eq adp.toneTemp (runes tone) []
    simp only [List.nil_append, List.length_nil] at h
    rw [RuneCountInString_eq, h]
    simp [appendRunes_eq]

theorem None_eq : None = utf8Of [0x39, 0x39, 0x39, 0x39] := by decide

theorem defaultTone_eq (adp : Adapter) (han : vowel) (t : GoString)
    (ht : tone adp han = some t) :
    defaultTone adp han = some (if t = [] then None
      else utf8Of ((runes t).map (stripRune adp.toneTemp))) := by
  unfold defaultTone
  rw [ht]
  exact stripTone_eq adp t

theorem tone_total (adp : Adapter) (han : vowel) : ∃ t, tone adp han = some t :=
  ⟨_, tone_eq adp han⟩

theorem defaultTone_utf8Of (adp : Adapter) (han : vowel) :
    ∃ x xs, defaultTone adp han = some (utf8Of (x :: xs)) := by
  obtain ⟨t, ht⟩ := tone_total adp han
  rw [defaultTone_eq adp han t ht]
  by_cases h : t = []
  · rw [if_pos h, None_eq]
    exact ⟨_, _, rfl⟩
  · rw [if_neg h]
    cases hr : runes t with
    | nil => exact absurd ((runes_eq_nil_iff t).1 hr) h
    | cons r rs => exact ⟨_, _, rfl⟩

theorem bigLetter_utf8Of (x : Int) (xs : List Int) :
    bigLetter (utf8Of (x :: xs))
      = some (utf8Of ((if scalarOf x > 32 then scalarOf x - 32 else scalarOf x) :: xs)) := by
  have hne : utf8Of (x :: xs) ≠ [] := by simp [utf8Of_eq_nil_iff]
  unfold bigLetter
  rw [if_neg hne, runes_utf8Of]
  simp only [List.map_cons]
  split_ifs
  · rw [appendRunes_eq, List.nil_append, utf8Of_cons, utf8Of_cons, utf8Of_map_scalarOf]
  · rw [appendRunes_eq, List.nil_append, utf8Of_cons, utf8Of_cons, utf8Of_map_scalarOf]

theorem initialWithBigLetter_utf8Of (adp : Adapter) (han : vowel) (x : Int) (xs : List Int)
    (h : defaultTone adp han = some (utf8Of (x :: xs))) :
    initialWithBigLetter adp han
      = some (utf8Of ((if scalarOf x > 32 then scalarOf x - 32 else scalarOf x) :: xs)) := by
  unfold initialWithBigLetter
  rw [h]
  exact bigLetter_utf8Of x xs

theorem parseSingleHan_total (adp : Adapter) (han : vowel) (yinType : Style) :
    ∃ w, parseSingleHan adp han yinType = some w := by
  unfold parseSingleHan
  split_ifs
  · exact tone_total adp han
  · obtain ⟨x, xs, h⟩ := defaultTone_utf8Of adp han
    exact ⟨_, initialWithBigLetter_utf8Of adp han x xs h⟩
  · obtain ⟨x, xs, h⟩ := defaultTone_utf8Of adp han
    exact ⟨_, h⟩

/-! ## C1: a Han character without an entry -/

theorem parseSingleHan_absent (T : GoMap GoString) (c : vowel) (h : T.get c = none) :
    parseSingleHan (adapterWith T) c Tone = some None
    ∧ parseSingleHan (adapterWith T) c Normal = some None
    ∧ parseSingleHan (adapterWith T) c InitialBigLetter = some [0x19, 0x39, 0x39, 0x39] := by
  have ht : tone (adapterWith T) c = some None := by
    rw [tone_eq]
    simp only [adapterWith, h]
  have hd : defaultTone (adapterWith T) c = some None := by
    rw [defaultTone_eq _ _ _ ht]
    show some (if None = [] then None
      else utf8Of ((runes None).map (stripRune (initToneTemp [])))) = some None
    decide
  refine ⟨ht, hd, ?_⟩
  show initialWithBigLetter (adapterWith T) c = _
  unfold initialWithBigLetter
  rw [hd]
  decide

/-- C1: for the empty Pinyin table and the Han character 中, which has no entry, the styles
Tone and Normal give the sentinel "9999", but the style InitialBigLetter gives the control
character U+0019 followed by "999": `initialWithBigLetter` subtracts 32 from the first code
point '9' of the sentinel.  `ParseHans` on the one-character text 中 returns the same. -/
theorem absent_han_initialBigLetter :
    parseSingleHan (adapterWith []) (rune '中') Tone = some (lit "9999")
    ∧ parseSingleHan (adapterWith []) (rune '中') Normal = some (lit "9999")
    ∧ parseSingleHan (adapterWith []) (rune '中') InitialBigLetter
        = some [0x19, 0x39, 0x39, 0x39]
    ∧ parseSingleHan (adapterWith []) (rune '中') InitialBigLetter ≠ some None
    ∧ ParseHans isHanSample (adapterWith []) (lit "中") [] InitialBigLetter
        = some [0x19, 0x39, 0x39, 0x39] := by
  decide

/-! ## C2: the toned reading -/

/-- C2: when the table has a non-empty reading for `c`, `tone` returns the part of the
reading before its first comma (byte 0x2C), the whole reading when it has no comma; when
`c` has no entry or its reading is the empty string, `tone` returns the sentinel. -/
theorem tone_first_field (adp : Adapter) (c : vowel) :
    (∀ pre post : GoString, adp.pinYinTemp.get c = some (pre ++ 0x2C :: post) →
        0x2C ∉ pre → tone adp c = some pre)
    ∧ (∀ data : GoString, adp.pinYinTemp.get c = some data → data ≠ [] → 0x2C ∉ data →
        tone adp c = some data)
    ∧ (adp.pinYinTemp.get c = none ∨ adp.pinYinTemp.get c = some [] →
        tone adp c = some (lit "9999")) := by
  refine ⟨?_, ?_, ?_⟩
  · intro pre post h hpre
    rw [tone_eq, h]
    simp only [ne_eq, List.append_eq_nil, and_false, not_false_eq_true, if_true, reduceCtorEq]
    rw [takeWhile_append_of_not_mem _ _ _ hpre]
  · intro data h hne hc
    rw [tone_eq, h]
    simp only [ne_eq, hne, not_false_eq_true, if_true]
    rw [takeWhile_of_not_mem _ _ hc]
  · intro h
    rw [tone_eq]
    rcases h with h | h
    · rw [h]; rfl
    · rw [h]; rfl

theorem tone_first_field_witness :
    tone (adapterWith sampleTable) (rune '中') = some (lit "zhōng")
    ∧ tone (adapterWith sampleTable) (rune '国') = some (lit "guó")
    ∧ tone (adapterWith sampleTable) (rune '好') = some (lit "9999") :=
  ⟨(tone_first_field (adapterWith sampleTable) (rune '中')).1 (lit "zhōng") (lit "zhòng")
      (by decide) (by decide),
    (tone_first_field (adapterWith sampleTable) (rune '国')).2.1 (lit "guó")
      (by decide) (by decide) (by decide),
    (tone_first_field (adapterWith sampleTable) (rune '好')).2.2 (Or.inl (by decide))⟩

/-! ## C3: the Normal rendering -/

/-- C3, as stated, fails: for the reading ",zhōng" of 中 the toned reading is the empty
string, whose substitution is the empty string, while `defaultTone` returns "9999". -/
theorem defaultTone_comma_counterexample :
    tone (adapterWith commaTable) (rune '中') = some []
    ∧ defaultTone (adapterWith commaTable) (rune '中') = some (lit "9999")
    ∧ defaultTone (adapterWith commaTable) (rune '中')
        ≠ some (utf8Of ((runes []).map (stripRune (adapterWith commaTable).toneTemp))) := by
  decide

/-- C3, amended: `tone` returns a string `t`; when `t` is not empty, `defaultTone` returns
the code points of `t`, each replaced by its tone-table value when it is a key of the tone
table and kept otherwise, in the original order; when `t` is empty, `defaultTone` returns
the sentinel "9999". -/
theorem defaultTone_strips_tone (adp : Adapter) (c : vowel) :
    ∃ t, tone adp c = some t
      ∧ (t ≠ [] → defaultTone adp c = some (utf8Of ((runes t).map (stripRune adp.toneTemp))))
      ∧ (t = [] → defaultTone adp c = some (lit "9999"))
      ∧ (∀ k, adp.toneTemp.get k = none → stripRune adp.toneTemp k = k)
      ∧ (∀ k v, adp.toneTemp.get k = some v → stripRune adp.toneTemp k = v) := by
  obtain ⟨t, ht⟩ := tone_total adp c
  refine ⟨t, ht, ?_, ?_, ?_, ?_⟩
  · intro h
    rw [defaultTone_eq adp c t ht, if_neg h]
  · intro h
    rw [defaultTone_eq adp c t ht, if_pos h]
    rfl
  · intro k h
    simp [stripRune, h]
  · intro k v h
    simp [stripRune, h]

/-! ## C4 and C5: the tone table of `init` -/

theorem tone_slices_length :
    firstTone.length = 12 ∧ secondTone.length = 12 ∧ thirdTone.length = 12
    ∧ fourthTone.length = 12 ∧ noTone.length = 12 := by
  decide

theorem lookup_isSome_iff {V : Type} (m : GoMap V) (k : vowel) :
    (m.get k).isSome ↔ k ∈ m.map Prod.fst := by
  induction m with
  | nil => simp [GoMap.get]
  | cons p m ih =>
    obtain ⟨a, b⟩ := p
    unfold GoMap.get at ih ⊢
    by_cases h : k = a
    · subst h
      simp [List.lookup]
    · have h2 : (k == a) = false := by simpa using h
      simp [List.lookup, h2, ih, h]

theorem mem_of_get_eq_some {V : Type} (m : GoMap V) (k : vowel) (v : V)
    (h : m.get k = some v) : (k, v) ∈ m := by
  induction m with
  | nil => simp [GoMap.get] at h
  | cons p m ih =>
    obtain ⟨a, b⟩ := p
    unfold GoMap.get at ih h
    by_cases hk : k = a
    · subst hk
      simp [List.lookup] at h
      simp [h]
    · have h2 : (k == a) = false := by simpa using hk
      simp only [List.lookup, h2] at h
      exact List.mem_cons_of_mem _ (ih h)

/-- C4, as stated, fails: the tone table maps the toned ü forms to the letter v, not to ü
(U+00FC), and the upper-case forms to V, not to Ü (U+00DC). -/
theorem toneTemp_diaeresis_counterexample :
    (initToneTemp []).get (rune 'ǖ') = some (rune 'v')
    ∧ (initToneTemp []).get (rune 'ǖ') ≠ some 0xFC
    ∧ (initToneTemp []).get (rune 'Ǖ') = some (rune 'V')
    ∧ (initToneTemp []).get (rune 'Ǖ') ≠ some 0xDC := by
  decide

/-- C4, amended: the tone table built by `init` maps each of the 48 toned vowels to an
unmarked letter of the same case: a toned a, e, i, o, u to a, e, i, o, u, a toned
A, E, I, O, U to A, E, I, O, U, the toned forms ǖ ǘ ǚ ǜ to v (U+0076) and Ǖ Ǘ Ǚ Ǜ to V
(U+0056). -/
theorem toneTemp_maps_toned_vowels (k v : vowel) (h : (k, v) ∈ tonedPairs) :
    (initToneTemp []).get k = some v := by
  have hall : ∀ p ∈ tonedPairs, (initToneTemp []).get p.1 = some p.2 := by decide
  exact hall (k, v) h

theorem toneTemp_maps_toned_vowels_witness :
    (initToneTemp []).get (rune 'ā') = some (rune 'a')
    ∧ (initToneTemp []).get (rune 'Ǜ') = some (rune 'V') :=
  ⟨toneTemp_maps_toned_vowels (rune 'ā') (rune 'a') (by decide),
    toneTemp_maps_toned_vowels (rune 'Ǜ') (rune 'V') (by decide)⟩

/-- C5: the tone table built by `init` has exactly 48 keys, the 48 toned vowels; the
lookup of any other code point finds nothing, among them the unmarked vowels, v, ü,
the digits and the consonants. -/
theorem toneTemp_keys :
    (initToneTemp []).len = 48
    ∧ ((initToneTemp []).map Prod.fst).Nodup
    ∧ tonedVowels.length = 48
    ∧ tonedVowels.Nodup
    ∧ (∀ k : vowel, ((initToneTemp []).get k).isSome ↔ k ∈ tonedVowels)
    ∧ (∀ k : vowel, k ∉ tonedVowels → (initToneTemp []).get k = none)
    ∧ (∀ k ∈ [rune 'a', rune 'e', rune 'i', rune 'o', rune 'u', rune 'v', rune 'ü',
          rune 'A', rune 'E', rune 'I', rune 'O', rune 'U', rune 'V', rune 'Ü',
          rune '0', rune '9', rune 'z', rune 'h', rune 'n', rune 'g'],
        (initToneTemp []).get k = none) := by
  have hsub1 : ∀ k ∈ (initToneTemp []).map Prod.fst, k ∈ tonedVowels := by decide
  have hsub2 : ∀ k ∈ tonedVowels, k ∈ (initToneTemp []).map Prod.fst := by decide
  have hiff : ∀ k : vowel, ((initToneTemp []).get k).isSome ↔ k ∈ tonedVowels := by
    intro k
    rw [lookup_isSome_iff]
    exact ⟨hsub1 k, hsub2 k⟩
  refine ⟨by decide, by decide, by decide, by decide, hiff, ?_, by decide⟩
  intro k hk
  cases hg : (initToneTemp []).get k with
  | none => rfl
  | some v =>
    have := (hiff k).1 (by rw [hg]; rfl)
    exact absurd this hk

/-! ## C6 and C7: the capital initial -/

/-- C6: `defaultTone` and `initialWithBigLetter` both return; the code point sequences of
the two strings have the same length and are equal at every position after the first. -/
theorem initialWithBigLetter_changes_first_only (adp : Adapter) (c : vowel) :
    ∃ d u, defaultTone adp c = some d ∧ initialWithBigLetter adp c = some u
      ∧ (runes u).length = (runes d).length
      ∧ (∀ i, 0 < i → (runes u)[i]? = (runes d)[i]?)
      ∧ (runes u).tail = (runes d).tail := by
  obtain ⟨x, xs, hd⟩ := defaultTone_utf8Of adp c
  refine ⟨_, _, hd, initialWithBigLetter_utf8Of adp c x xs hd, ?_, ?_, ?_⟩
  · simp [runes_utf8Of]
  · intro i hi
    obtain ⟨j, rfl⟩ : ∃ j, i = j + 1 := ⟨i - 1, by omega⟩
    simp [runes_utf8Of]
  · simp [runes_utf8Of]

theorem encoderune_head_ascii (y : Int) (b : Nat) (t : GoString)
    (h : encoderune y = b :: t) (hb : b < 0x80) : y = (b : Int) ∧ t = [] := by
  unfold encoderune at h
  split_ifs at h with h1 h2 h3 h4 <;>
    simp only [List.cons.injEq, List.nil_eq, List.cons_ne_nil, and_false] at h
  · obtain ⟨hy, ht⟩ := h
    exact ⟨by omega, ht⟩
  all_goals omega

/-- C7: when the Normal rendering of `c` begins with a lower-case ASCII letter `x`
(a byte from 'a' to 'z'), `initialWithBigLetter` returns the upper-case letter `x - 32`
followed by the unchanged remainder of the Normal rendering. -/
theorem initialWithBigLetter_capitalises (adp : Adapter) (c : vowel) (x : Nat)
    (rest : GoString) (hd : defaultTone adp c = some (x :: rest))
    (hlo : 0x61 ≤ x) (hhi : x ≤ 0x7A) :
    initialWithBigLetter adp c = some ((x - 32) :: rest) := by
  obtain ⟨y, ys, hy⟩ := defaultTone_utf8Of adp c
  rw [initialWithBigLetter_utf8Of adp c y ys hy]
  rw [hd, utf8Of_cons] at hy
  have hy2 : x :: rest = encoderune y ++ utf8Of ys := Option.some.inj hy
  cases he : encoderune y with
  | nil => exact absurd he (encoderune_ne_nil y)
  | cons b t =>
    rw [he] at hy2
    simp only [List.cons_append, List.cons.injEq] at hy2
    obtain ⟨hxb, hrest⟩ := hy2
    subst hxb
    obtain ⟨hyx, ht⟩ := encoderune_head_ascii y x t he (by omega)
    subst ht
    simp only [List.nil_append] at hrest
    have hv : scalarOf y = y := scalarOf_of_valid (by unfold validRune; omega)
    rw [hv, if_pos (by omega), utf8Of_cons, ← hrest]
    have hx : encoderune (y - 32) = [x - 32] := by
      unfold encoderune
      rw [if_pos (by omega)]
      congr 1
      omega
    rw [hx]
    rfl

theorem initialWithBigLetter_capitalises_witness :
    defaultTone (adapterWith sampleTable) (rune '中') = some (lit "zhong")
    ∧ initialWithBigLetter (adapterWith sampleTable) (rune '中') = some (lit "Zhong") :=
  ⟨by decide,
    initialWithBigLetter_capitalises (adapterWith sampleTable) (rune '中') 0x7A (lit "hong")
      (by decide) (by decide) (by decide)⟩

/-! ## C8 and C9: rendering a rendering again -/

theorem toneTemp_values_not_keys (k v : vowel) (h : (initToneTemp []).get k = some v) :
    (initToneTemp []).get v = none := by
  have hall : ∀ p ∈ initToneTemp [], (initToneTemp []).get p.2 = none := by decide
  exact hall (k, v) (mem_of_get_eq_some _ k v h)

theorem stripRune_stripRune (t : vowel) :
    stripRune (initToneTemp []) (stripRune (initToneTemp []) t)
      = stripRune (initToneTemp []) t := by
  cases h : (initToneTemp []).get t with
  | none => simp [stripRune, h]
  | some v =>
    have hv := toneTemp_values_not_keys t v h
    simp [stripRune, h, hv]

/-- C8: with the tone table built by `init`, the substitution loop of `defaultTone` run on
a code point sequence `s` returns a sequence `s1`, and run on `s1` it returns `s1` again;
no value of the tone table is a key of the tone table. -/
theorem strip_idempotent (s : List vowel) :
    ∃ s1, stripLoop (initToneTemp []) s (List.replicate s.length 0) 0 = some s1
      ∧ stripLoop (initToneTemp []) s1 (List.replicate s1.length 0) 0 = some s1
      ∧ s1 = s.map (stripRune (initToneTemp []))
      ∧ (∀ k v, (initToneTemp []).get k = some v → (initToneTemp []).get v = none) := by
  have h1 := stripLoop_eq (initToneTemp []) s []
  have h2 := stripLoop_eq (initToneTemp []) (s.map (stripRune (initToneTemp []))) []
  simp only [List.nil_append, List.length_nil] at h1 h2
  refine ⟨_, h1, ?_, rfl, toneTemp_values_not_keys⟩
  rw [h2]
  simp [stripRune_stripRune]

/-- C9: with the reading "zhōng" of 中, `initialWithBigLetter` returns "Zhong"; stripping
the tones of "Zhong" and capitalising by the rule of the code (subtract 32 from a first
code point above 32) gives ":hong", not "Zhong": the transformation is not idempotent. -/
theorem bigLetter_twice :
    initialWithBigLetter (adapterWith sampleTable) (rune '中') = some (lit "Zhong")
    ∧ (stripTone (adapterWith sampleTable) (lit "Zhong")).bind bigLetter = some (lit ":hong")
    ∧ (stripTone (adapterWith sampleTable) (lit "Zhong")).bind bigLetter
        ≠ initialWithBigLetter (adapterWith sampleTable) (rune '中') := by
  decide

/-! ## C10: code points that are not Han -/

theorem parseLoop_append (isHan : vowel → Bool) (adp : Adapter) (yinType : Style)
    (xs ys : List vowel) (words : List GoString) :
    parseLoop isHan adp yinType (xs ++ ys) words
      = (parseLoop isHan adp yinType xs words).bind (parseLoop isHan adp yinType ys) := by
  induction xs generalizing words with
  | nil => rfl
  | cons x xs ih =>
    simp only [List.cons_append, parseLoop]
    split_ifs
    · exact ih _
    · cases parseSingleHan adp x yinType with
      | none => rfl
      | some word =>
        simp only
        split_ifs
        · exact ih _
        · exact ih _

theorem parseLoop_acc (isHan : vowel → Bool) (adp : Adapter) (yinType : Style)
    (xs : List vowel) (words : List GoString) :
    ∃ ws, parseLoop isHan adp yinType xs [] = some ws
      ∧ parseLoop isHan adp yinType xs words = some (words ++ ws) := by
  induction xs generalizing words with
  | nil => exact ⟨[], rfl, by simp [parseLoop]⟩
  | cons x xs ih =>
    simp only [parseLoop]
    split_ifs
    · obtain ⟨ws, h0, _⟩ := ih []
      obtain ⟨ws1, h1, h2⟩ := ih ([] ++ [stringOf x])
      obtain ⟨ws2, h3, h4⟩ := ih (words ++ [stringOf x])
      rw [h0] at h1 h3
      cases h1
      cases h3
      exact ⟨_, h2, by rw [h4]; simp⟩
    · obtain ⟨word, hw⟩ := parseSingleHan_total adp x yinType
      rw [hw]
      simp only
      split_ifs
      · obtain ⟨ws, h0, _⟩ := ih []
        obtain ⟨ws1, h1, h2⟩ := ih ([] ++ [word])
        obtain ⟨ws2, h3, h4⟩ := ih (words ++ [word])
        rw [h0] at h1 h3
        cases h1
        cases h3
        exact ⟨_, h2, by rw [h4]; simp⟩
      · obtain ⟨ws, h0, h1⟩ := ih words
        exact ⟨ws, h0, h1⟩

theorem parseLoop_nonHan (isHan : vowel → Bool) (adp : Adapter) (yinType : Style)
    (xs : List vowel) (words : List GoString) (h : ∀ r ∈ xs, isHan r = false) :
    parseLoop isHan adp yinType xs words = some (words ++ xs.map stringOf) := by
  induction xs generalizing words with
  | nil => simp [parseLoop]
  | cons x xs ih =>
    have hx : isHan x = false := h x (by simp)
    rw [parseLoop, if_pos hx, ih _ (fun r hr => h r (by simp [hr]))]
    simp

theorem Join_nil_sep (ws : List GoString) : strings.Join ws [] = ws.flatten := by
  induction ws with
  | nil => rfl
  | cons w ws ih =>
    cases ws with
    | nil => simp [strings.Join]
    | cons w2 ws => rw [strings.Join, ih]; simp

theorem flatten_map_stringOf (xs : List vowel) : (xs.map stringOf).flatten = utf8Of xs := by
  induction xs with
  | nil => rfl
  | cons x xs ih => rw [List.map_cons, List.flatten_cons, ih, utf8Of_cons, stringOf]

/-- C10, as stated, fails: a Go string can hold bytes that are not UTF-8; for the text of
the one byte 0xFF, which decodes to the code point U+FFFD (not Han), `ParseHans` with the
empty separator returns the three bytes EF BF BD of U+FFFD, not the text itself. -/
theorem ParseHans_ill_formed_counterexample :
    runes [0xFF] = [0xFFFD]
    ∧ isHanSample 0xFFFD = false
    ∧ ParseHans isHanSample (adapterWith []) [0xFF] [] Normal = some [0xEF, 0xBF, 0xBD]
    ∧ ParseHans isHanSample (adapterWith []) [0xFF] [] Normal ≠ some [0xFF] := by
  decide

/-- C10, amended: `ParseHans` turns a code point `r` of the text that is not Han into the
token `string(r)`, placed between the tokens of the code points before it and the tokens
of the code points after it, whatever the style and the table; the result for a text
without a Han code point is the text's code points joined by the separator; with the empty
separator it is the text itself when the text is well-formed UTF-8 (the encoding of Unicode
scalar values), and in general the encoding of the text's code points, each ill-formed
byte having become U+FFFD; with the reading "zhōng" of 中, the text "a中b" in the style
Normal with the empty separator gives "azhongb". -/
theorem ParseHans_nonHan_passthrough (isHan : vowel → Bool) (T : GoMap GoString)
    (split : GoString) (yinType : Style) :
    (∀ (hans : GoString) (before after : List vowel) (r : vowel),
        runes hans = before ++ r :: after → isHan r = false →
        ∃ w1 w2, parseLoop isHan (adapterWith T) yinType before [] = some w1
          ∧ parseLoop isHan (adapterWith T) yinType after [] = some w2
          ∧ ParseHans isHan (adapterWith T) hans split yinType
              = some (strings.Join (w1 ++ [stringOf r] ++ w2) split))
    ∧ (∀ hans : GoString, (∀ r ∈ runes hans, isHan r = false) →
        ParseHans isHan (adapterWith T) hans split yinType
          = some (strings.Join ((runes hans).map stringOf) split))
    ∧ (∀ cs : List vowel, (∀ r ∈ cs, validRune r ∧ isHan r = false) →
        runes (utf8Of cs) = cs
        ∧ ParseHans isHan (adapterWith T) (utf8Of cs) [] yinType = some (utf8Of cs))
    ∧ (∀ hans : GoString, (∀ r ∈ runes hans, isHan r = false) →
        ParseHans isHan (adapterWith T) hans [] yinType = some (utf8Of (runes hans)))
    ∧ (tone (adapterWith T) (rune '中') = some (lit "zhōng") →
        isHan (rune 'a') = false → isHan (rune '中') = true → isHan (rune 'b') = false →
        ParseHans isHan (adapterWith T) (lit "a中b") [] Normal = some (lit "azhongb")) := by
  refine ⟨?_, ?_, ?_, ?_, ?_⟩
  · intro hans before after r hr hnon
    obtain ⟨w1, h1, _⟩ := parseLoop_acc isHan (adapterWith T) yinType before []
    obtain ⟨w2, h2, h3⟩ := parseLoop_acc isHan (adapterWith T) yinType after
      (w1 ++ [stringOf r])
    refine ⟨w1, w2, h1, h2, ?_⟩
    unfold ParseHans
    rw [hr, parseLoop_append, h1]
    simp only [Option.bind_eq_bind, Option.some_bind]
    rw [parseLoop, if_pos hnon, h3]
  · intro hans h
    unfold ParseHans
    rw [parseLoop_nonHan isHan _ yinType _ [] h]
    rfl
  · intro cs h
    have hcs : cs.map scalarOf = cs := by
      rw [List.map_congr_left (fun r hr => scalarOf_of_valid (h r hr).1)]
      exact List.map_id' cs
    have hr : runes (utf8Of cs) = cs := by rw [runes_utf8Of, hcs]
    refine ⟨hr, ?_⟩
    unfold ParseHans
    rw [hr, parseLoop_nonHan isHan _ yinType _ [] (fun r hr => (h r hr).2)]
    simp only [List.nil_append]
    rw [Join_nil_sep, flatten_map_stringOf]
  · intro hans h
    unfold ParseHans
    rw [parseLoop_nonHan isHan _ yinType _ [] h]
    simp only [List.nil_append]
    rw [Join_nil_sep, flatten_map_stringOf]
  · intro ht ha hz hb
    have hd : defaultTone (adapterWith T) (rune '中') = some (lit "zhong") := by
      rw [defaultTone_eq _ _ _ ht]
      show some (if lit "zhōng" = [] then None
        else utf8Of ((runes (lit "zhōng")).map (stripRune (initToneTemp [])))) = _
      decide
    have hp : parseSingleHan (adapterWith T) (rune '中') Normal = some (lit "zhong") := hd
    have hrs : runes (lit "a中b") = [rune 'a', rune '中', rune 'b'] := by decide
    unfold ParseHans
    rw [hrs]
    simp only [parseLoop, ha, hz, hb, hp, if_true]
    decide

theorem ParseHans_nonHan_passthrough_witness :
    ParseHans isHanSample (adapterWith sampleTable) (lit "a中b") [] Normal
      = some (lit "azhongb")
    ∧ ParseHans isHanSample (adapterWith sampleTable) (lit "ab, c") (lit "-") Tone
      = some (lit "a-b-,- -c") :=
  ⟨(ParseHans_nonHan_passthrough isHanSample sampleTable [] Normal).2.2.2.2
      (by decide) (by decide) (by decide) (by decide),
    ((ParseHans_nonHan_passthrough isHanSample sampleTable (lit "-") Tone).2.1
      (lit "ab, c") (by decide)).trans (by decide)⟩

/-! ## C11: the tokens of Han characters -/

theorem defaultTone_ne_nil (adp : Adapter) (c : vowel) :
    ∃ d, defaultTone adp c = some d ∧ d ≠ [] := by
  obtain ⟨x, xs, h⟩ := defaultTone_utf8Of adp c
  exact ⟨_, h, by simp [utf8Of_eq_nil_iff]⟩

theorem initialWithBigLetter_ne_nil (adp : Adapter) (c : vowel) :
    ∃ u, initialWithBigLetter adp c = some u ∧ u ≠ [] := by
  obtain ⟨x, xs, h⟩ := defaultTone_utf8Of adp c
  exact ⟨_, initialWithBigLetter_utf8Of adp c x xs h, by simp [utf8Of_eq_nil_iff]⟩

theorem tone_eq_nil_iff (adp : Adapter) (c : vowel) :
    tone adp c = some [] ↔ ∃ post, adp.pinYinTemp.get c = some (0x2C :: post) := by
  rw [tone_eq]
  constructor
  · intro h
    cases hg : adp.pinYinTemp.get c with
    | none =>
      rw [hg] at h
      exact absurd (Option.some.inj h) (by decide)
    | some data =>
      rw [hg] at h
      cases data with
      | nil => exact absurd (Option.some.inj h) (by decide)
      | cons b post =>
        by_cases hb : b = 0x2C
        · exact ⟨post, by rw [hb]⟩
        · simp [List.takeWhile_cons, hb] at h
  · rintro ⟨post, hg⟩
    rw [hg]
    simp [List.takeWhile_cons]

theorem parseLoop_length (isHan : vowel → Bool) (adp : Adapter) (yinType : Style)
    (xs : List vowel) (words : List GoString)
    (h : ∀ c ∈ xs, isHan c = true → ∃ w, parseSingleHan adp c yinType = some w ∧ w ≠ []) :
    ∃ ws, parseLoop isHan adp yinType xs words = some ws
      ∧ ws.length = words.length + xs.length := by
  induction xs generalizing words with
  | nil => exact ⟨words, rfl, rfl⟩
  | cons x xs ih =>
    have hrest : ∀ c ∈ xs, isHan c = true →
        ∃ w, parseSingleHan adp c yinType = some w ∧ w ≠ [] :=
      fun c hc => h c (by simp [hc])
    rw [parseLoop]
    split_ifs with hx
    · obtain ⟨ws, h1, h2⟩ := ih (words ++ [stringOf x]) hrest
      exact ⟨ws, h1, by rw [h2]; simp; omega⟩
    · obtain ⟨w, hw, hne⟩ := h x (by simp) (by simpa using hx)
      rw [hw]
      simp only
      rw [if_pos (List.length_pos.2 hne)]
      obtain ⟨ws, h1, h2⟩ := ih (words ++ [w]) hrest
      exact ⟨ws, h1, by rw [h2]; simp; omega⟩

/-- C11, as stated, fails: with the reading ",zhōng" of 中 the token of 中 in the style
Tone is the empty string; `ParseHans` drops it, so the text "a中b" of three code points
gives the two tokens "a" and "b". -/
theorem empty_token_counterexample :
    parseSingleHan (adapterWith commaTable) (rune '中') Tone = some []
    ∧ isHanSample (rune '中') = true
    ∧ (runes (lit "a中b")).length = 3
    ∧ parseLoop isHanSample (adapterWith commaTable) Tone (runes (lit "a中b")) []
        = some [lit "a", lit "b"]
    ∧ ParseHans isHanSample (adapterWith commaTable) (lit "a中b") (lit "-") Tone
        = some (lit "a-b") := by
  decide

/-- C11, amended: in every style other than Tone the token `parseSingleHan(c, style)` is
a non-empty string; in the style Tone it is non-empty unless the reading of `c` starts with
a comma, and then it is the empty string.  With a style other than Tone, or with a text no
code point of which has a reading that starts with a comma, the number of tokens `ParseHans`
joins equals the number of code points of the text. -/
theorem token_nonempty (isHan : vowel → Bool) (adp : Adapter) (split : GoString)
    (yinType : Style) :
    (yinType ≠ Tone → ∀ c, ∃ w, parseSingleHan adp c yinType = some w ∧ w ≠ [])
    ∧ (∀ c, (∀ post, adp.pinYinTemp.get c ≠ some (0x2C :: post)) →
        ∃ w, parseSingleHan adp c Tone = some w ∧ w ≠ [])
    ∧ (∀ c post, adp.pinYinTemp.get c = some (0x2C :: post) →
        parseSingleHan adp c Tone = some [])
    ∧ (∀ hans : GoString,
        (yinType ≠ Tone ∨ ∀ c ∈ runes hans, ∀ post, adp.pinYinTemp.get c ≠ some (0x2C :: post)) →
        ∃ ws, parseLoop isHan adp yinType (runes hans) [] = some ws
          ∧ ParseHans isHan adp hans split yinType = some (strings.Join ws split)
          ∧ ws.length = (runes hans).length) := by
  have hother : yinType ≠ Tone → ∀ c, ∃ w, parseSingleHan adp c yinType = some w ∧ w ≠ [] := by
    intro hst c
    unfold parseSingleHan
    rw [if_neg hst]
    split_ifs
    · exact initialWithBigLetter_ne_nil adp c
    · exact defaultTone_ne_nil adp c
  have htone : ∀ c, (∀ post, adp.pinYinTemp.get c ≠ some (0x2C :: post)) →
      ∃ w, parseSingleHan adp c Tone = some w ∧ w ≠ [] := by
    intro c hc
    obtain ⟨t, ht⟩ := tone_total adp c
    refine ⟨t, ?_, ?_⟩
    · unfold parseSingleHan
      rw [if_pos rfl]
      exact ht
    · intro hnil
      rw [hnil] at ht
      obtain ⟨post, hp⟩ := (tone_eq_nil_iff adp c).1 ht
      exact hc post hp
  refine ⟨hother, htone, ?_, ?_⟩
  · intro c post hg
    unfold parseSingleHan
    rw [if_pos rfl]
    exact (tone_eq_nil_iff adp c).2 ⟨post, hg⟩
  · intro hans hcase
    have hall : ∀ c ∈ runes hans, isHan c = true →
        ∃ w, parseSingleHan adp c yinType = some w ∧ w ≠ [] := by
      intro c hc _
      by_cases hst : yinType = Tone
      · rcases hcase with h | h
        · exact absurd hst h
        · rw [hst]
          exact htone c (h c hc)
      · exact hother hst c
    obtain ⟨ws, h1, h2⟩ := parseLoop_length isHan adp yinType (runes hans) [] hall
    refine ⟨ws, h1, ?_, by simpa using h2⟩
    unfold ParseHans
    rw [h1]

theorem token_nonempty_witness :
    (∃ w, parseSingleHan (adapterWith commaTable) (rune '中') Normal = some w ∧ w ≠ [])
    ∧ (∃ w, parseSingleHan (adapterWith sampleTable) (rune '中') Tone = some w ∧ w ≠ [])
    ∧ parseSingleHan (adapterWith commaTable) (rune '中') Tone = some []
    ∧ (∃ ws, parseLoop isHanSample (adapterWith commaTable) InitialBigLetter
          (runes (lit "a中b")) [] = some ws
        ∧ ParseHans isHanSample (adapterWith commaTable) (lit "a中b") [] InitialBigLetter
          = some (strings.Join ws [])
        ∧ ws.length = (runes (lit "a中b")).length) :=
  ⟨(token_nonempty isHanSample (adapterWith commaTable) [] Normal).1 (by decide) (rune '中'),
    (token_nonempty isHanSample (adapterWith sampleTable) [] Tone).2.1 (rune '中')
      (fun post h => absurd h (by
        show ¬ (some (lit "zhōng,zhòng") = some (0x2C :: post))
        intro e
        exact absurd (List.cons.inj (Option.some.inj e)).1 (by decide))),
    (token_nonempty isHanSample (adapterWith commaTable) [] Tone).2.2.1 (rune '中')
      (lit "zhōng") (by decide),
    (token_nonempty isHanSample (adapterWith commaTable) [] InitialBigLetter).2.2.2
      (lit "a中b") (Or.inl (by decide))⟩

/-! ## C12: the empty reading -/

theorem get_delete_self {V : Type} (m : GoMap V) (k : vowel) : (m.delete k).get k = none := by
  induction m with
  | nil => rfl
  | cons p m ih =>
    obtain ⟨a, b⟩ := p
    unfold GoMap.delete GoMap.get at ih ⊢
    by_cases h : a = k
    · subst h
      simpa [List.filter_cons] using ih
    · have h2 : (k == a) = false := by simpa using fun e : k = a => h e.symm
      simp only [List.filter_cons, bne_iff_ne, ne_eq, h, not_false_eq_true, decide_True,
        if_true, List.lookup, h2]
      simpa using ih

theorem get_delete_of_ne {V : Type} (m : GoMap V) (k j : vowel) (h : j ≠ k) :
    (m.delete k).get j = m.get j := by
  induction m with
  | nil => rfl
  | cons p m ih =>
    obtain ⟨a, b⟩ := p
    unfold GoMap.delete GoMap.get at ih ⊢
    by_cases ha : a = k
    · subst ha
      have h2 : (j == a) = false := by simpa using h
      simpa [List.filter_cons, List.lookup, h2] using ih
    · simp only [List.filter_cons, bne_iff_ne, ne_eq, ha, not_false_eq_true, decide_True,
        if_true, List.lookup]
      cases (j == a)
      · simpa using ih
      · rfl

theorem parseSingleHan_congr (T1 T2 : GoMap GoString) (c : vowel) (yinType : Style)
    (h : tone (adapterWith T1) c = tone (adapterWith T2) c) :
    parseSingleHan (adapterWith T1) c yinType = parseSingleHan (adapterWith T2) c yinType := by
  have hd : defaultTone (adapterWith T1) c = defaultTone (adapterWith T2) c := by
    unfold defaultTone
    rw [h]
    rfl
  unfold parseSingleHan initialWithBigLetter
  rw [h, hd]

/-- C12: a character whose entry in the Pinyin table is the empty reading is rendered as
an absent one: when `T[c]` is the empty string, `parseSingleHan(c, style)` over `T` equals
`parseSingleHan(c, style)` over `T` with the entry for `c` removed, in every style, and
over any table without an entry for `c`; the removal leaves the other entries as they are. -/
theorem empty_reading_as_absent (T : GoMap GoString) (c : vowel) (yinType : Style)
    (h : T.get c = some []) :
    parseSingleHan (adapterWith T) c yinType
      = parseSingleHan (adapterWith (T.delete c)) c yinType
    ∧ (T.delete c).get c = none
    ∧ (∀ j, j ≠ c → (T.delete c).get j = T.get j)
    ∧ (∀ T2 : GoMap GoString, T2.get c = none →
        parseSingleHan (adapterWith T) c yinType
          = parseSingleHan (adapterWith T2) c yinType) := by
  have key : ∀ T2 : GoMap GoString, T2.get c = none →
      parseSingleHan (adapterWith T) c yinType
        = parseSingleHan (adapterWith T2) c yinType := by
    intro T2 h2
    apply parseSingleHan_congr
    rw [tone_eq, tone_eq]
    simp only [adapterWith, h, h2]
    rfl
  exact ⟨key _ (get_delete_self T c), get_delete_self T c,
    fun j hj => get_delete_of_ne T c j hj, key⟩

theorem empty_reading_as_absent_witness :
    parseSingleHan (adapterWith emptyReadingTable) (rune '中') Tone
      = parseSingleHan (adapterWith (emptyReadingTable.delete (rune '中'))) (rune '中') Tone
    ∧ parseSingleHan (adapterWith emptyReadingTable) (rune '中') Tone = some (lit "9999") :=
  ⟨(empty_reading_as_absent emptyReadingTable (rune '中') Tone (by decide)).1, by decide⟩

/-! ## C13: the text 中国人 -/

theorem tone_of_first_field (T : GoMap GoString) (c : vowel) (field more : GoString)
    (hg : T.get c = some (field ++ more)) (hf : field ≠ []) (hc : 0x2C ∉ field)
    (hm : more = [] ∨ more.head? = some 0x2C) :
    tone (adapterWith T) c = some field := by
  rcases hm with hm | hm
  · subst hm
    rw [List.append_nil] at hg
    have hg2 : (adapterWith T).pinYinTemp.get c = some field := hg
    rw [tone_eq, hg2]
    simp only
    rw [if_pos hf, takeWhile_of_not_mem _ _ hc]
  · cases more with
    | nil => simp at hm
    | cons b post =>
      simp only [List.head?_cons, Option.some.injEq] at hm
      subst hm
      have hg2 : (adapterWith T).pinYinTemp.get c = some (field ++ 0x2C :: post) := hg
      rw [tone_eq, hg2]
      simp only
      rw [if_pos (by simp), takeWhile_append_of_not_mem _ _ _ hc]

theorem renderings_of_tone (T : GoMap GoString) (c : vowel) (t d u : GoString)
    (ht : tone (adapterWith T) c = some t)
    (hd : stripTone (adapterWith []) t = some d) (hu : bigLetter d = some u) :
    parseSingleHan (adapterWith T) c Tone = some t
    ∧ parseSingleHan (adapterWith T) c Normal = some d
    ∧ parseSingleHan (adapterWith T) c InitialBigLetter = some u := by
  have hd2 : defaultTone (adapterWith T) c = some d := by
    unfold defaultTone
    rw [ht]
    exact hd
  refine ⟨ht, hd2, ?_⟩
  show initialWithBigLetter (adapterWith T) c = some u
  unfold initialWithBigLetter
  rw [hd2]
  exact hu

/-- C13: for a Pinyin table in which the first comma-separated fields of the readings of
中, 国 and 人 are "zhōng", "guó" and "rén", `ParseHans` of the text "中国人" with the separator
" " returns "zhōng guó rén" in the style Tone, "zhong guo ren" in the style Normal and
"Zhong Guo Ren" in the style InitialBigLetter (the three characters being Han). -/
theorem ParseHans_zhong_guo_ren (isHan : vowel → Bool) (T : GoMap GoString)
    (m1 m2 m3 : GoString)
    (h1 : T.get (rune '中') = some (lit "zhōng" ++ m1)) (hm1 : m1 = [] ∨ m1.head? = some 0x2C)
    (h2 : T.get (rune '国') = some (lit "guó" ++ m2)) (hm2 : m2 = [] ∨ m2.head? = some 0x2C)
    (h3 : T.get (rune '人') = some (lit "rén" ++ m3)) (hm3 : m3 = [] ∨ m3.head? = some 0x2C)
    (hz : isHan (rune '中') = true) (hg : isHan (rune '国') = true)
    (hr : isHan (rune '人') = true) :
    ParseHans isHan (adapterWith T) (lit "中国人") (lit " ") Tone = some (lit "zhōng guó rén")
    ∧ ParseHans isHan (adapterWith T) (lit "中国人") (lit " ") Normal
        = some (lit "zhong guo ren")
    ∧ ParseHans isHan (adapterWith T) (lit "中国人") (lit " ") InitialBigLetter
        = some (lit "Zhong Guo Ren") := by
  have t1 := tone_of_first_field T _ _ m1 h1 (by decide) (by decide) hm1
  have t2 := tone_of_first_field T _ _ m2 h2 (by decide) (by decide) hm2
  have t3 := tone_of_first_field T _ _ m3 h3 (by decide) (by decide) hm3
  obtain ⟨a1, b1, c1⟩ := renderings_of_tone T _ _ (lit "zhong") (lit "Zhong") t1
    (by decide) (by decide)
  obtain ⟨a2, b2, c2⟩ := renderings_of_tone T _ _ (lit "guo") (lit "Guo") t2
    (by decide) (by decide)
  obtain ⟨a3, b3, c3⟩ := renderings_of_tone T _ _ (lit "ren") (lit "Ren") t3
    (by decide) (by decide)
  have hrs : runes (lit "中国人") = [rune '中', rune '国', rune '人'] := by decide
  refine ⟨?_, ?_, ?_⟩
  · unfold ParseHans
    rw [hrs]
    simp only [parseLoop, hz, hg, hr, a1, a2, a3]
    decide
  · unfold ParseHans
    rw [hrs]
    simp only [parseLoop, hz, hg, hr, b1, b2, b3]
    decide
  · unfold ParseHans
    rw [hrs]
    simp only [parseLoop, hz, hg, hr, c1, c2, c3]
    decide

theorem ParseHans_zhong_guo_ren_witness :
    ParseHans isHanSample (adapterWith sampleTable) (lit "中国人") (lit " ") Tone
      = some (lit "zhōng guó rén")
    ∧ ParseHans isHanSample (adapterWith sampleTable) (lit "中国人") (lit " ") Normal
        = some (lit "zhong guo ren")
    ∧ ParseHans isHanSample (adapterWith sampleTable) (lit "中国人") (lit " ") InitialBigLetter
        = some (lit "Zhong Guo Ren") :=
  ParseHans_zhong_guo_ren isHanSample sampleTable (lit ",zhòng") [] []
    (by decide) (Or.inr (by decide)) (by decide) (Or.inl rfl) (by decide) (Or.inl rfl)
    (by decide) (by decide) (by decide)

/-! ## C14, C15 and C17: what the Normal rendering contains -/

theorem validRune_decoderune (s : GoString) : validRune (decoderune s).1 := by
  unfold decoderune
  split
  · unfold validRune RuneError; omega
  · split_ifs
    · unfold validRune; simp only; omega
    · split
      · split_ifs
        · unfold validRune; simp only; omega
        · unfold validRune RuneError; simp only; omega
      · unfold validRune RuneError; simp only; omega
    · split
      · split_ifs
        · unfold validRune; simp only; omega
        · unfold validRune RuneError; simp only; omega
      · unfold validRune RuneError; simp only; omega
    · split
      · split_ifs
        · unfold validRune; simp only; omega
        · unfold validRune RuneError; simp only; omega
      · unfold validRune RuneError; simp only; omega
    · unfold validRune RuneError; simp only; omega

theorem validRune_of_mem_runesAux (k : Nat) (s : GoString) :
    ∀ r ∈ runesAux k s, validRune r := by
  induction s generalizing k with
  | nil => cases k <;> simp [runesAux]
  | cons b s ih =>
    cases k with
    | zero =>
      intro r hr
      simp only [runesAux, List.mem_cons] at hr
      rcases hr with hr | hr
      · rw [hr]; exact validRune_decoderune _
      · exact ih _ r hr
    | succ k =>
      intro r hr
      simp only [runesAux] at hr
      exact ih _ r hr

theorem validRune_of_mem_runes (s : GoString) : ∀ r ∈ runes s, validRune r :=
  validRune_of_mem_runesAux 0 s

theorem stripRune_valid_not_key (x : vowel) (hx : validRune x) :
    validRune (stripRune (initToneTemp []) x)
    ∧ (initToneTemp []).get (stripRune (initToneTemp []) x) = none := by
  cases h : (initToneTemp []).get x with
  | none =>
    have e : stripRune (initToneTemp []) x = x := by simp [stripRune, h]
    rw [e]
    exact ⟨hx, h⟩
  | some v =>
    have e : stripRune (initToneTemp []) x = v := by simp [stripRune, h]
    rw [e]
    have hall : ∀ p ∈ initToneTemp [], validRune p.2 := by decide
    exact ⟨hall (x, v) (mem_of_get_eq_some _ x v h), toneTemp_values_not_keys x v h⟩

/-- C14: the Normal rendering `defaultTone(c)` contains no tone-marked code point: none of
its code points is a key of the tone table built by `init`. -/
theorem defaultTone_no_tone_mark (T : GoMap GoString) (c : vowel) :
    ∃ d, defaultTone (adapterWith T) c = some d
      ∧ ∀ r ∈ runes d, (adapterWith T).toneTemp.get r = none := by
  obtain ⟨t, ht⟩ := tone_total (adapterWith T) c
  refine ⟨_, defaultTone_eq (adapterWith T) c t ht, ?_⟩
  show ∀ r ∈ runes (if t = [] then None
    else utf8Of ((runes t).map (stripRune (initToneTemp [])))), (initToneTemp []).get r = none
  by_cases h : t = []
  · rw [if_pos h]
    decide
  · rw [if_neg h, runes_utf8Of]
    intro r hr
    simp only [List.map_map, List.mem_map, Function.comp_apply] at hr
    obtain ⟨x, hx, rfl⟩ := hr
    obtain ⟨hv, hk⟩ := stripRune_valid_not_key x (validRune_of_mem_runes t x hx)
    rw [scalarOf_of_valid hv]
    exact hk

/-- C15: when `tone(c)` is the sentinel "9999", `defaultTone(c)` is the sentinel "9999"
(the test of `defaultTone` is against the empty string; the sentinel passes through the
substitution loop unchanged, its code points not being keys of the tone table). -/
theorem defaultTone_propagates_sentinel (T : GoMap GoString) (c : vowel)
    (h : tone (adapterWith T) c = some (lit "9999")) :
    defaultTone (adapterWith T) c = some (lit "9999") := by
  rw [defaultTone_eq _ _ _ h]
  show some (if lit "9999" = [] then None
    else utf8Of ((runes (lit "9999")).map (stripRune (initToneTemp [])))) = some (lit "9999")
  decide

theorem defaultTone_propagates_sentinel_witness :
    tone (adapterWith sampleTable) (rune '好') = some (lit "9999")
    ∧ defaultTone (adapterWith sampleTable) (rune '好') = some (lit "9999") :=
  ⟨by decide, defaultTone_propagates_sentinel sampleTable (rune '好') (by decide)⟩

/-- C17: `defaultTone(c)` and `initialWithBigLetter(c)` return non-empty strings; so the
test `def == ""` of `initialWithBigLetter` never holds, the slice `str` has a first element
and the access `str[0]` does not panic. -/
theorem renderings_nonempty (adp : Adapter) (c : vowel) :
    ∃ d u, defaultTone adp c = some d ∧ d ≠ []
      ∧ 0 < (runes d).length
      ∧ initialWithBigLetter adp c = some u ∧ u ≠ []
      ∧ bigLetter d = some u := by
  obtain ⟨x, xs, hd⟩ := defaultTone_utf8Of adp c
  have hne : utf8Of (x :: xs) ≠ [] := by simp [utf8Of_eq_nil_iff]
  refine ⟨_, _, hd, hne, ?_, initialWithBigLetter_utf8Of adp c x xs hd,
    by simp [utf8Of_eq_nil_iff], bigLetter_utf8Of x xs⟩
  rw [runes_utf8Of]
  simp

/-! ## C18 and C19: texts and styles -/

theorem ParseHans_append_aux (isHan : vowel → Bool) (adp : Adapter) (yinType : Style)
    (a b : GoString) (h : runes (a ++ b) = runes a ++ runes b) :
    ∃ x y, ParseHans isHan adp a [] yinType = some x
      ∧ ParseHans isHan adp b [] yinType = some y
      ∧ ParseHans isHan adp (a ++ b) [] yinType = some (x ++ y) := by
  obtain ⟨w1, h1, _⟩ := parseLoop_acc isHan adp yinType (runes a) []
  obtain ⟨w2, h2, h3⟩ := parseLoop_acc isHan adp yinType (runes b) w1
  refine ⟨strings.Join w1 [], strings.Join w2 [], ?_, ?_, ?_⟩
  · unfold ParseHans
    rw [h1]
  · unfold ParseHans
    rw [h2]
  · unfold ParseHans
    rw [h, parseLoop_append, h1]
    simp only [Option.bind_eq_bind, Option.some_bind]
    rw [h3]
    simp only [Join_nil_sep, List.flatten_append]

/-- C18: with the empty separator `ParseHans` is a homomorphism for the concatenation of
texts given as code point sequences: the result for `a ++ b` is the result for `a` followed
by the result for `b`; the same holds when `b` is any string of bytes; and the result for
the empty text is the empty string. -/
theorem ParseHans_concat (isHan : vowel → Bool) (adp : Adapter) (yinType : Style) :
    ParseHans isHan adp [] [] yinType = some []
    ∧ (∀ a b : List vowel, ∃ x y,
        ParseHans isHan adp (utf8Of a) [] yinType = some x
        ∧ ParseHans isHan adp (utf8Of b) [] yinType = some y
        ∧ ParseHans isHan adp (utf8Of (a ++ b)) [] yinType = some (x ++ y))
    ∧ (∀ (a : List vowel) (b : GoString), ∃ x y,
        ParseHans isHan adp (utf8Of a) [] yinType = some x
        ∧ ParseHans isHan adp b [] yinType = some y
        ∧ ParseHans isHan adp (utf8Of a ++ b) [] yinType = some (x ++ y)) := by
  have key : ∀ (a : List vowel) (b : GoString),
      runes (utf8Of a ++ b) = runes (utf8Of a) ++ runes b := by
    intro a b
    rw [runes_utf8Of_append, runes_utf8Of]
  refine ⟨rfl, ?_, ?_⟩
  · intro a b
    rw [utf8Of_append]
    exact ParseHans_append_aux isHan adp yinType _ _ (key a _)
  · intro a b
    exact ParseHans_append_aux isHan adp yinType _ _ (key a b)

theorem parseLoop_style_congr (isHan : vowel → Bool) (adp : Adapter) (s1 s2 : Style)
    (h : ∀ c, parseSingleHan adp c s1 = parseSingleHan adp c s2)
    (xs : List vowel) (words : List GoString) :
    parseLoop isHan adp s1 xs words = parseLoop isHan adp s2 xs words := by
  induction xs generalizing words with
  | nil => rfl
  | cons x xs ih =>
    rw [parseLoop, parseLoop, h x]
    split_ifs
    · exact ih _
    · cases parseSingleHan adp x s2 with
      | none => rfl
      | some word =>
        simp only
        split_ifs
        · exact ih _
        · exact ih _

/-- C19: for every style value other than 1 (Tone) and 2 (InitialBigLetter), that is 0
and every value from 3 on, `parseSingleHan(c, style)` is `defaultTone(c)`, and `ParseHans`
with such a style gives the same result as with the style Normal. -/
theorem style_fallback_normal (isHan : vowel → Bool) (adp : Adapter) (yinType : Style)
    (h1 : yinType ≠ 1) (h2 : yinType ≠ 2) :
    (∀ c, parseSingleHan adp c yinType = defaultTone adp c)
    ∧ (∀ c, parseSingleHan adp c Normal = defaultTone adp c)
    ∧ (∀ hans split, ParseHans isHan adp hans split yinType
        = ParseHans isHan adp hans split Normal) := by
  have e1 : ∀ c, parseSingleHan adp c yinType = defaultTone adp c := by
    intro c
    unfold parseSingleHan
    have n1 : yinType ≠ Tone := h1
    have n2 : yinType ≠ InitialBigLetter := h2
    rw [if_neg n1, if_neg n2]
  have e2 : ∀ c, parseSingleHan adp c Normal = defaultTone adp c := fun c => rfl
  refine ⟨e1, e2, ?_⟩
  intro hans split
  unfold ParseHans
  rw [parseLoop_style_congr isHan adp yinType Normal (fun c => (e1 c).trans (e2 c).symm)]

theorem style_fallback_normal_witness :
    parseSingleHan (adapterWith sampleTable) (rune '中') 255
      = defaultTone (adapterWith sampleTable) (rune '中')
    ∧ ParseHans isHanSample (adapterWith sampleTable) (lit "a中b") [] 3
      = some (lit "azhongb") :=
  ⟨(style_fallback_normal isHanSample (adapterWith sampleTable) 255 (by decide)
      (by decide)).1 (rune '中'),
    ((style_fallback_normal isHanSample (adapterWith sampleTable) 3 (by decide)
      (by decide)).2.2 (lit "a中b") []).trans (by decide)⟩

/-! ## C16: loading the table from a file -/

theorem ParseInt_samples :
    strconv.ParseInt (lit "4E2D") 16 32 = some 0x4E2D
    ∧ strconv.ParseInt (lit "4e2d") 16 32 = some 0x4E2D
    ∧ strconv.ParseInt (lit "-1") 16 32 = some (-1)
    ∧ strconv.ParseInt (lit "+7F") 16 32 = some 0x7F
    ∧ strconv.ParseInt (lit "7FFFFFFF") 16 32 = some 0x7FFFFFFF
    ∧ strconv.ParseInt (lit "-80000000") 16 32 = some (-0x80000000)
    ∧ strconv.ParseInt (lit "80000000") 16 32 = none
    ∧ strconv.ParseInt (lit "") 16 32 = none
    ∧ strconv.ParseInt (lit "-") 16 32 = none
    ∧ strconv.ParseInt (lit "0x4E2D") 16 32 = none
    ∧ strconv.ParseInt (lit "4E 2D") 16 32 = none
    ∧ strconv.ParseInt (lit "xyz") 16 32 = none := by
  decide

theorem loadLines_sample :
    loadLines [] sampleLines
      = [(rune '人', lit "rén"), (rune '国', lit "guó"), (rune '中', lit "zhōng,zhòng")] := by
  decide
theorem startsWith_iff (sep s : GoString) :
    startsWith sep s = true ↔ ∃ rest, s = sep ++ rest := by
  unfold startsWith
  rw [decide_eq_true_iff]
  constructor
  · intro h
    refine ⟨s.drop sep.length, ?_⟩
    conv_lhs => rw [← List.take_append_drop sep.length s]
    rw [h]
  · rintro ⟨rest, rfl⟩
    simp

theorem splitAux_skip (sep skipped rest cur : GoString) :
    strings.splitAux sep skipped.length cur (skipped ++ rest)
      = strings.splitAux sep 0 cur rest := by
  induction skipped with
  | nil => rfl
  | cons b skipped ih => simpa [strings.splitAux] using ih

theorem splitAux_ne_nil (sep : GoString) (k : Nat) (cur s : GoString) :
    ∃ f fs, strings.splitAux sep k cur s = f :: fs := by
  induction s generalizing k cur with
  | nil => cases k <;> exact ⟨_, _, rfl⟩
  | cons b s ih =>
    cases k with
    | zero =>
      rw [strings.splitAux]
      split_ifs
      · exact ⟨_, _, rfl⟩
      · exact ih _ _
    | succ k =>
      rw [strings.splitAux]
      exact ih _ _

theorem splitAux_no_sep (sep : GoString) (cur s : GoString)
    (h : ∀ s1 s2, s = s1 ++ s2 → startsWith sep s2 = false) :
    strings.splitAux sep 0 cur s = [cur.reverse ++ s] := by
  induction s generalizing cur with
  | nil => simp [strings.splitAux]
  | cons b s ih =>
    rw [strings.splitAux, h [] (b :: s) rfl]
    simp only [Bool.false_eq_true, if_false]
    rw [ih (b :: cur) (fun s1 s2 e => h (b :: s1) s2 (by rw [e]; rfl))]
    simp

theorem splitAux_first (sep : GoString) (hsep : sep ≠ []) (a b cur : GoString)
    (h : ∀ a1 a2, a = a1 ++ a2 → a2 ≠ [] → startsWith sep (a2 ++ (sep ++ b)) = false) :
    strings.splitAux sep 0 cur (a ++ (sep ++ b))
      = (cur.reverse ++ a) :: strings.splitAux sep 0 [] b := by
  induction a generalizing cur with
  | nil =>
    cases sep with
    | nil => exact absurd rfl hsep
    | cons c sep2 =>
      have hs : startsWith (c :: sep2) (c :: (sep2 ++ b)) = true :=
        (startsWith_iff _ _).2 ⟨b, rfl⟩
      show strings.splitAux (c :: sep2) 0 cur (c :: (sep2 ++ b)) = _
      rw [strings.splitAux, hs]
      simp only [if_true, List.length_cons, Nat.add_sub_cancel, List.append_nil]
      rw [splitAux_skip]
  | cons x a ih =>
    have hs : startsWith sep (x :: (a ++ (sep ++ b))) = false :=
      h [] (x :: a) rfl (by simp)
    show strings.splitAux sep 0 cur (x :: (a ++ (sep ++ b))) = _
    rw [strings.splitAux, hs]
    simp only [Bool.false_eq_true, if_false]
    rw [ih (x :: cur) (fun a1 a2 e hne => h (x :: a1) a2 (by rw [e]; rfl) hne)]
    simp

theorem loadLine_no_delimiter (T : GoMap GoString) (line : GoString)
    (h : ∀ a b, line ≠ a ++ lit "=>" ++ b) : loadLine T line = T := by
  have hs : strings.Split line (lit "=>") = [line] := by
    unfold strings.Split
    rw [splitAux_no_sep]
    · rfl
    · intro s1 s2 e
      cases hsw : startsWith (lit "=>") s2 with
      | false => rfl
      | true =>
        obtain ⟨rest, hr⟩ := (startsWith_iff _ _).1 hsw
        exact absurd (by rw [e, hr, List.append_assoc]) (h s1 rest)
  unfold loadLine
  rw [hs]

theorem loadLine_bad_number (T : GoMap GoString) (line a b : GoString)
    (hl : line = a ++ lit "=>" ++ b)
    (hfirst : ∀ a2 b2, line = a2 ++ lit "=>" ++ b2 → a.length ≤ a2.length)
    (hbad : strconv.ParseInt a 16 32 = none) : loadLine T line = T := by
  have hs : strings.Split line (lit "=>") = a :: strings.Split b (lit "=>") := by
    unfold strings.Split
    rw [hl, List.append_assoc, splitAux_first (lit "=>") (by decide) a b []]
    · rfl
    · intro a1 a2 e hne
      cases hsw : startsWith (lit "=>") (a2 ++ (lit "=>" ++ b)) with
      | false => rfl
      | true =>
        obtain ⟨rest, hr⟩ := (startsWith_iff _ _).1 hsw
        have hle := hfirst a1 rest (by
          rw [hl, e, List.append_assoc, List.append_assoc, hr, List.append_assoc])
        have hlen : a.length = a1.length + a2.length := by rw [e, List.length_append]
        have hpos : 0 < a2.length := List.length_pos.2 hne
        omega
  obtain ⟨f, fs, hf⟩ := splitAux_ne_nil (lit "=>") 0 [] b
  unfold loadLine
  rw [hs]
  unfold strings.Split
  rw [hf]
  simp only [hbad]

theorem loadLines_append (T : GoMap GoString) (xs ys : List GoString) :
    loadLines T (xs ++ ys) = loadLines (loadLines T xs) ys := by
  induction xs generalizing T with
  | nil => rfl
  | cons x xs ih => exact ih _

theorem scanLines_sample :
    bufio.scanLines sampleContent = sampleLines
    ∧ bufio.scanLines (lit "a\n\nb\r\n") = [lit "a", [], lit "b"]
    ∧ bufio.scanLines (lit "a\r") = [lit "a"]
    ∧ bufio.scanLines [] = [] := by
  decide

theorem dropCR_cases (l : GoString) :
    bufio.dropCR l = l ∨ l = bufio.dropCR l ++ [0x0D] := by
  unfold bufio.dropCR
  split_ifs with h
  · right
    exact (List.dropLast_append_getLast? 0x0D (by rw [h]; rfl)).symm
  · left
    rfl

theorem scanAux_line (line cur rest : GoString) (hnl : 0x0A ∉ line)
    (hlen : cur.length + line.length < bufio.MaxScanTokenSize) :
    bufio.scanAux cur (line ++ 0x0A :: rest)
      = bufio.dropCR (cur.reverse ++ line) :: bufio.scanAux [] rest := by
  induction line generalizing cur with
  | nil => simp [bufio.scanAux]
  | cons b line ih =>
    have hb : b ≠ 0x0A := fun e => hnl (by simp [e])
    have hl : 0x0A ∉ line := fun e => hnl (by simp [e])
    simp only [List.length_cons] at hlen
    show bufio.scanAux cur (b :: (line ++ 0x0A :: rest)) = _
    rw [bufio.scanAux, if_neg hb, if_neg (by omega), ih (b :: cur) hl (by simp; omega)]
    simp

theorem scanAux_last_line (line cur : GoString) (hnl : 0x0A ∉ line)
    (hlen : cur.length + line.length < bufio.MaxScanTokenSize) (hne : cur.reverse ++ line ≠ []) :
    bufio.scanAux cur line = [bufio.dropCR (cur.reverse ++ line)] := by
  induction line generalizing cur with
  | nil =>
    have hc : cur ≠ [] := by simpa using hne
    simp [bufio.scanAux, hc]
  | cons b line ih =>
    have hb : b ≠ 0x0A := fun e => hnl (by simp [e])
    have hl : 0x0A ∉ line := fun e => hnl (by simp [e])
    simp only [List.length_cons] at hlen
    rw [bufio.scanAux, if_neg hb, if_neg (by omega), ih (b :: cur) hl (by simp; omega) (by simp)]
    simp

theorem scanAux_too_long (line cur rest : GoString) (hnl : 0x0A ∉ line)
    (hlen : bufio.MaxScanTokenSize ≤ cur.length + line.length)
    (hcur : cur.length < bufio.MaxScanTokenSize) :
    bufio.scanAux cur (line ++ rest) = [] := by
  induction line generalizing cur with
  | nil =>
    simp only [List.length_nil, Nat.add_zero] at hlen
    omega
  | cons b line ih =>
    have hb : b ≠ 0x0A := fun e => hnl (by simp [e])
    have hl : 0x0A ∉ line := fun e => hnl (by simp [e])
    simp only [List.length_cons] at hlen
    show bufio.scanAux cur (b :: (line ++ rest)) = _
    rw [bufio.scanAux, if_neg hb]
    split_ifs with h
    · rfl
    · exact ih (b :: cur) hl (by simp; omega) (by simp; omega)

theorem scanAux_before (before : GoString) (hend : before.getLast? = some 0x0A) :
    ∀ cur, ∃ ls, (∀ rest, bufio.scanAux cur (before ++ rest) = ls ++ bufio.scanAux [] rest)
      ∨ (∀ rest, bufio.scanAux cur (before ++ rest) = ls) := by
  induction before with
  | nil => simp at hend
  | cons b before ih =>
    intro cur
    by_cases hb : b = 0x0A
    · subst hb
      cases before with
      | nil =>
        refine ⟨[bufio.dropCR cur.reverse], Or.inl ?_⟩
        intro rest
        simp [bufio.scanAux]
      | cons b2 before2 =>
        have hend2 : (b2 :: before2).getLast? = some 0x0A := by
          simpa [List.getLast?_cons_cons] using hend
        obtain ⟨ls, h | h⟩ := ih hend2 []
        · refine ⟨bufio.dropCR cur.reverse :: ls, Or.inl ?_⟩
          intro rest
          show bufio.scanAux cur (0x0A :: ((b2 :: before2) ++ rest)) = _
          rw [bufio.scanAux, if_pos rfl, h rest]
          rfl
        · refine ⟨bufio.dropCR cur.reverse :: ls, Or.inr ?_⟩
          intro rest
          show bufio.scanAux cur (0x0A :: ((b2 :: before2) ++ rest)) = _
          rw [bufio.scanAux, if_pos rfl, h rest]
    · cases before with
      | nil =>
        simp only [List.getLast?_singleton, Option.some.injEq] at hend
        exact absurd hend hb
      | cons b2 before2 =>
        have hend2 : (b2 :: before2).getLast? = some 0x0A := by
          simpa [List.getLast?_cons_cons] using hend
        by_cases hfull : cur.length + 1 ≥ bufio.MaxScanTokenSize
        · refine ⟨[], Or.inr ?_⟩
          intro rest
          show bufio.scanAux cur (b :: ((b2 :: before2) ++ rest)) = _
          rw [bufio.scanAux, if_neg hb, if_pos hfull]
        · obtain ⟨ls, h | h⟩ := ih hend2 (b :: cur)
          · refine ⟨ls, Or.inl ?_⟩
            intro rest
            show bufio.scanAux cur (b :: ((b2 :: before2) ++ rest)) = _
            rw [bufio.scanAux, if_neg hb, if_neg hfull, h rest]
          · refine ⟨ls, Or.inr ?_⟩
            intro rest
            show bufio.scanAux cur (b :: ((b2 :: before2) ++ rest)) = _
            rw [bufio.scanAux, if_neg hb, if_neg hfull, h rest]

theorem scanLines_before (before : GoString) (hend : before = [] ∨ before.getLast? = some 0x0A) :
    ∃ ls, (∀ rest, bufio.scanLines (before ++ rest) = ls ++ bufio.scanLines rest)
      ∨ (∀ rest, bufio.scanLines (before ++ rest) = ls) := by
  rcases hend with h | h
  · subst h
    exact ⟨[], Or.inl (fun rest => rfl)⟩
  · exact scanAux_before before h []
theorem loadLine_dropCR (T : GoMap GoString) (line : GoString)
    (hbad : (∀ a b, line ≠ a ++ lit "=>" ++ b)
      ∨ ∃ a b, line = a ++ lit "=>" ++ b
          ∧ (∀ a2 b2, line = a2 ++ lit "=>" ++ b2 → a.length ≤ a2.length)
          ∧ strconv.ParseInt a 16 32 = none) :
    loadLine T (bufio.dropCR line) = T := by
  rcases dropCR_cases line with hd | hd
  · rw [hd]
    rcases hbad with h | ⟨a, b, hl, hfirst, hnum⟩
    · exact loadLine_no_delimiter T line h
    · exact loadLine_bad_number T line a b hl hfirst hnum
  · generalize bufio.dropCR line = text at hd ⊢
    rcases hbad with h | ⟨a, b, hl, hfirst, hnum⟩
    · apply loadLine_no_delimiter
      intro a b e
      apply h a (b ++ [0x0D])
      rw [hd, e]
      simp
    · have hsep : lit "=>" = [0x3D, 0x3E] := by decide
      rcases List.eq_nil_or_concat b with hb | ⟨b2, x, hb⟩
      · exfalso
        rw [hl, hb, hsep] at hd
        have := congrArg List.getLast? hd
        simp at this
      · rw [List.concat_eq_append] at hb
        have e : a ++ lit "=>" ++ (b2 ++ [x]) = (a ++ lit "=>" ++ b2) ++ [x] := by simp
        have hd2 : (a ++ lit "=>" ++ b2) ++ [x] = text ++ [0x0D] := by
          rw [← e, ← hb, ← hl]
          exact hd
        obtain ⟨e1, _⟩ := List.append_inj' hd2 rfl
        apply loadLine_bad_number T _ a b2 e1.symm ?_ hnum
        intro a2 b3 e3
        apply hfirst a2 (b3 ++ [0x0D])
        rw [hd, e3]
        simp

/-- C16, amended: when the Pinyin table is loaded from a file, a line of fewer than
65536 bytes (`MaxScanTokenSize`) without the delimiter "=>", or whose text before the first
"=>" `strconv.ParseInt` does not accept as a base-16 integer of 32 bits, leaves the table
unchanged and does not stop the load: `NewAdapter` returns the adapter it returns for the
file without that line.  The line is followed by its line end, or it is the last line of
the file and has none. -/
theorem load_skips_malformed_line (openFile1 openFile2 : GoString → Option GoString)
    (pinyinDict : GoMap GoString) (path before line lineEnd after : GoString)
    (hpath : path ≠ [])
    (hstart : before = [] ∨ before.getLast? = some 0x0A)
    (hnl : 0x0A ∉ line)
    (hshort : line.length < bufio.MaxScanTokenSize)
    (hend : lineEnd = [0x0A] ∨ (lineEnd = [] ∧ after = []))
    (h1 : openFile1 path = some (before ++ (line ++ (lineEnd ++ after))))
    (h2 : openFile2 path = some (before ++ after))
    (hbad : (∀ a b, line ≠ a ++ lit "=>" ++ b)
      ∨ ∃ a b, line = a ++ lit "=>" ++ b
          ∧ (∀ a2 b2, line = a2 ++ lit "=>" ++ b2 → a.length ≤ a2.length)
          ∧ strconv.ParseInt a 16 32 = none) :
    (∀ T, loadLine T (bufio.dropCR line) = T)
    ∧ (∀ T, loadLines T (bufio.scanLines (before ++ (line ++ (lineEnd ++ after))))
        = loadLines T (bufio.scanLines (before ++ after)))
    ∧ NewAdapter openFile1 pinyinDict [WithTempPath path]
        = NewAdapter openFile2 pinyinDict [WithTempPath path]
    ∧ NewAdapter openFile1 pinyinDict [WithTempPath path]
        = some { tempPath := path, toneTemp := initToneTemp [],
                 pinYinTemp := loadLines [] (bufio.scanLines (before ++ after)) } := by
  have hline : ∀ T, loadLine T (bufio.dropCR line) = T := fun T => loadLine_dropCR T line hbad
  have hscan : ∀ T, loadLines T (bufio.scanLines (line ++ (lineEnd ++ after)))
      = loadLines T (bufio.scanLines after) := by
    intro T
    rcases hend with he | ⟨he, ha⟩
    · subst he
      unfold bufio.scanLines
      rw [List.singleton_append, scanAux_line line [] after hnl (by simpa using hshort)]
      simp only [List.reverse_nil, List.nil_append, loadLines, hline]
    · subst he ha
      simp only [List.append_nil]
      by_cases hl : line = []
      · rw [hl]
      · unfold bufio.scanLines
        rw [scanAux_last_line line [] hnl (by simpa using hshort) (by simpa using hl)]
        simp only [List.reverse_nil, List.nil_append, loadLines, hline, bufio.scanAux, if_true]
  have hlines : ∀ T, loadLines T (bufio.scanLines (before ++ (line ++ (lineEnd ++ after))))
      = loadLines T (bufio.scanLines (before ++ after)) := by
    intro T
    obtain ⟨ls, h | h⟩ := scanLines_before before hstart
    · rw [h, h, loadLines_append, loadLines_append, hscan]
    · rw [h, h]
  have e1 : NewAdapter openFile1 pinyinDict [WithTempPath path]
      = some { tempPath := path, toneTemp := initToneTemp [],
               pinYinTemp := loadLines []
                 (bufio.scanLines (before ++ (line ++ (lineEnd ++ after)))) } := by
    simp only [NewAdapter, List.foldl, WithTempPath, init, hpath, ne_eq, not_false_eq_true,
      if_true, h1]
  have e2 : NewAdapter openFile2 pinyinDict [WithTempPath path]
      = some { tempPath := path, toneTemp := initToneTemp [],
               pinYinTemp := loadLines [] (bufio.scanLines (before ++ after)) } := by
    simp only [NewAdapter, List.foldl, WithTempPath, init, hpath, ne_eq, not_false_eq_true,
      if_true, h2]
  refine ⟨hline, hlines, ?_, ?_⟩
  · rw [e1, e2, hlines]
  · rw [e1, hlines]
theorem load_skips_malformed_line_witness :
    NewAdapter (sampleFiles sampleContent) [] [WithTempPath (lit "dict.txt")]
      = NewAdapter (sampleFiles sampleContentShort) [] [WithTempPath (lit "dict.txt")]
    ∧ NewAdapter (sampleFiles (lit "4E2D=>zhōng\nxyz=>bad")) [] [WithTempPath (lit "dict.txt")]
      = NewAdapter (sampleFiles (lit "4E2D=>zhōng\n")) [] [WithTempPath (lit "dict.txt")] :=
  ⟨(load_skips_malformed_line (sampleFiles sampleContent) (sampleFiles sampleContentShort)
      [] (lit "dict.txt") (lit "4E2D=>zhōng,zhòng\n") (lit "no delimiter here") [0x0A]
      (lit "56FD=>guó\r\nxyz=>bad\n80000000=>too big\n4EBA=>rén")
      (by decide) (by decide) (by decide) (by decide) (Or.inl rfl) (by decide) (by decide)
      (Or.inl (fun a b e => by
        have hm : 0x3D ∈ lit "no delimiter here" := by
          rw [e]
          have hs : lit "=>" = [0x3D, 0x3E] := by decide
          rw [hs]
          simp
        exact absurd hm (by decide)))).2.2.1,
    (load_skips_malformed_line (sampleFiles (lit "4E2D=>zhōng\nxyz=>bad"))
      (sampleFiles (lit "4E2D=>zhōng\n"))
      [] (lit "dict.txt") (lit "4E2D=>zhōng\n") (lit "xyz=>bad") [] []
      (by decide) (by decide) (by decide) (by decide) (Or.inr ⟨rfl, rfl⟩) (by decide)
      (by decide)
      (Or.inr ⟨lit "xyz", lit "bad", by decide, fun a2 b2 e => by
        have hs : lit "=>" = [0x3D, 0x3E] := by decide
        have hl : lit "xyz=>bad" = [0x78, 0x79, 0x7A, 0x3D, 0x3E, 0x62, 0x61, 0x64] := by decide
        have hx : (lit "xyz").length = 3 := by decide
        rw [hs, hl] at e
        rw [hx]
        rcases a2 with _ | ⟨x, _ | ⟨y, _ | ⟨z, a2⟩⟩⟩
        · simp at e
        · simp at e
        · simp at e
        · simp, by decide⟩)).2.2.1⟩

theorem NewAdapter_of_file (openFile : GoString → Option GoString)
    (pinyinDict : GoMap GoString) (path content : GoString) (hpath : path ≠ [])
    (h : openFile path = some content) :
    NewAdapter openFile pinyinDict [WithTempPath path]
      = some { tempPath := path, toneTemp := initToneTemp [],
               pinYinTemp := loadLines [] (bufio.scanLines content) } := by
  simp only [NewAdapter, List.foldl, WithTempPath, init, hpath, ne_eq, not_false_eq_true,
    if_true, h]

theorem longLine_facts :
    longLine.length = 65536 ∧ 0x0A ∉ longLine ∧ 0x3D ∉ longLine := by
  refine ⟨?_, ?_, ?_⟩
  · rw [longLine, List.length_replicate]
  · intro h
    rw [longLine] at h
    exact absurd (List.eq_of_mem_replicate h) (by decide)
  · intro h
    rw [longLine] at h
    exact absurd (List.eq_of_mem_replicate h) (by decide)

theorem scanLines_longLineContent :
    bufio.scanLines longLineContent = [lit "4E2D=>zhōng"] := by
  obtain ⟨hlen, hnl, _⟩ := longLine_facts
  unfold bufio.scanLines longLineContent
  rw [scanAux_line (lit "4E2D=>zhōng") [] _ (by decide) (by decide),
    scanAux_too_long longLine [] _ hnl (by rw [hlen]; decide) (by decide)]
  decide

/-- C16, as stated, fails: in a file of the three lines "4E2D=>zhōng", a line of 65536
bytes 'x' (no delimiter) and "56FD=>guó", the long line fills the buffer of the scanner,
`Scan` returns false and the load ends: the table has the entry of 中 only, while the file
without the long line gives the entries of 中 and 国. -/
theorem load_stops_at_long_line :
    longLineContent = lit "4E2D=>zhōng\n" ++ (longLine ++ [0x0A]) ++ lit "56FD=>guó\n"
    ∧ longLine.length = 65536 ∧ 0x0A ∉ longLine ∧ 0x3D ∉ longLine
    ∧ NewAdapter (sampleFiles longLineContent) [] [WithTempPath (lit "dict.txt")]
        = some { tempPath := lit "dict.txt", toneTemp := initToneTemp [],
                 pinYinTemp := [(rune '中', lit "zhōng")] }
    ∧ NewAdapter (sampleFiles (lit "4E2D=>zhōng\n" ++ lit "56FD=>guó\n")) []
          [WithTempPath (lit "dict.txt")]
        = some { tempPath := lit "dict.txt", toneTemp := initToneTemp [],
                 pinYinTemp := [(rune '国', lit "guó"), (rune '中', lit "zhōng")] }
    ∧ NewAdapter (sampleFiles longLineContent) [] [WithTempPath (lit "dict.txt")]
        ≠ NewAdapter (sampleFiles (lit "4E2D=>zhōng\n" ++ lit "56FD=>guó\n")) []
            [WithTempPath (lit "dict.txt")] := by
  obtain ⟨hlen, hnl, heq⟩ := longLine_facts
  have e0 : longLineContent
      = lit "4E2D=>zhōng\n" ++ (longLine ++ [0x0A]) ++ lit "56FD=>guó\n" := by
    have a1 : lit "4E2D=>zhōng\n" = lit "4E2D=>zhōng" ++ [0x0A] := by decide
    have a2 : lit "\n56FD=>guó\n" = 0x0A :: lit "56FD=>guó\n" := by decide
    rw [longLineContent, a1, a2]
    simp
  have e1 : NewAdapter (sampleFiles longLineContent) [] [WithTempPath (lit "dict.txt")]
      = some { tempPath := lit "dict.txt", toneTemp := initToneTemp [],
               pinYinTemp := [(rune '中', lit "zhōng")] } := by
    rw [NewAdapter_of_file (sampleFiles longLineContent) [] (lit "dict.txt") longLineContent
      (by decide) (by unfold sampleFiles; rw [if_pos rfl]), scanLines_longLineContent]
    have hl : loadLines [] [lit "4E2D=>zhōng"] = [(rune '中', lit "zhōng")] := by decide
    rw [hl]
  have e2 : NewAdapter (sampleFiles (lit "4E2D=>zhōng\n" ++ lit "56FD=>guó\n")) []
      [WithTempPath (lit "dict.txt")]
      = some { tempPath := lit "dict.txt", toneTemp := initToneTemp [],
               pinYinTemp := [(rune '国', lit "guó"), (rune '中', lit "zhōng")] } := by
    rw [NewAdapter_of_file (sampleFiles (lit "4E2D=>zhōng\n" ++ lit "56FD=>guó\n")) []
      (lit "dict.txt") (lit "4E2D=>zhōng\n" ++ lit "56FD=>guó\n")
      (by decide) (by unfold sampleFiles; rw [if_pos rfl])]
    have hl : loadLines [] (bufio.scanLines (lit "4E2D=>zhōng\n" ++ lit "56FD=>guó\n"))
        = [(rune '国', lit "guó"), (rune '中', lit "zhōng")] := by decide
    rw [hl]
  refine ⟨e0, hlen, hnl, heq, e1, e2, ?_⟩
  rw [e1, e2]
  intro h
  have h2 := congrArg (fun o => o.map (fun a => a.pinYinTemp.length)) h
  simp at h2
theorem parseLoop_congr (isHan : vowel → Bool) (adp1 adp2 : Adapter) (yinType : Style)
    (h : ∀ c, parseSingleHan adp1 c yinType = parseSingleHan adp2 c yinType)
    (xs : List vowel) (words : List GoString) :
    parseLoop isHan adp1 yinType xs words = parseLoop isHan adp2 yinType xs words := by
  induction xs generalizing words with
  | nil => rfl
  | cons x xs ih =>
    rw [parseLoop, parseLoop, h x]
    split_ifs
    · exact ih _
    · cases parseSingleHan adp2 x yinType with
      | none => rfl
      | some word =>
        simp only
        split_ifs
        · exact ih _
        · exact ih _

theorem NewAdapter_renders_as_adapterWith (isHan : vowel → Bool)
    (openFile : GoString → Option GoString) (pinyinDict : GoMap GoString)
    (paths : List GoString) (adp : Adapter)
    (h : NewAdapter openFile pinyinDict (paths.map WithTempPath) = some adp) :
    adp.toneTemp = initToneTemp []
    ∧ (∀ c yinType, parseSingleHan adp c yinType
        = parseSingleHan (adapterWith adp.pinYinTemp) c yinType)
    ∧ (∀ hans split yinType, ParseHans isHan adp hans split yinType
        = ParseHans isHan (adapterWith adp.pinYinTemp) hans split yinType) := by
  have hfold : ∀ (ps : List GoString) (a : Adapter),
      ((ps.map WithTempPath).foldl (fun adp opt => opt adp) a).toneTemp = a.toneTemp
      ∧ ((ps.map WithTempPath).foldl (fun adp opt => opt adp) a).pinYinTemp = a.pinYinTemp := by
    intro ps
    induction ps with
    | nil => intro a; exact ⟨rfl, rfl⟩
    | cons p ps ih =>
      intro a
      simp only [List.map_cons, List.foldl_cons]
      exact ih _
  have ht : adp.toneTemp = initToneTemp [] := by
    unfold NewAdapter init at h
    obtain ⟨f1, _⟩ := hfold paths { tempPath := [], toneTemp := [], pinYinTemp := [] }
    split_ifs at h
    · split at h
      · exact absurd h (by simp)
      · cases h
        simp only [f1]
    · cases h
      simp only [f1]
  have hp : ∀ c yinType, parseSingleHan adp c yinType
      = parseSingleHan (adapterWith adp.pinYinTemp) c yinType := by
    intro c yinType
    simp only [parseSingleHan, initialWithBigLetter, defaultTone, stripTone, tone, adapterWith,
      ht]
  refine ⟨ht, hp, ?_⟩
  intro hans split yinType
  unfold ParseHans
  rw [parseLoop_congr isHan adp (adapterWith adp.pinYinTemp) yinType (fun c => hp c yinType)]

end GoPinyin
